import Mathlib

/-!
Verification of the `mdz_ansi_16` bounded byte-string engine.

The repository ships only the public header `src/mdz_ansi_16.h`: each entry
point is declared together with its full error contract (the ordered list of
error codes and the condition firing each one), but the function bodies are
not part of the source tree.  The embedding below therefore keeps the header
contracts as the authority for validation behaviour, and models the missing
mutation/search bodies from the specification's algorithm descriptions.

Modelling conventions:
* bytes are `Nat` values (the engine only moves bytes, never computes on
  them), the content region of a bound string is a `List Nat` of length
  `capacity + 1` (content plus the terminator slot);
* C pointers that may be NULL become `Option`; the process-wide licensing
  flag is passed explicitly as a `Bool` argument;
* address-range overlap between the bound buffer and an external item buffer
  is not expressible on values, so each operation that rejects overlap takes
  the result of that address comparison as an explicit `Bool` argument;
* `size_t` is fixed at 64 bits, so the not-found sentinel `SIZE_MAX` is
  `2 ^ 64 - 1`.
-/

/-- Modelled from the spec: `mdz_error.h` is not in src/; the constructors are
the error codes named by the contracts in `mdz_ansi_16.h`, plus
`REPLACE_TYPE`, the "unsupported replacement kind" error the spec requires
for a `replacementKind` outside the supported set. -/
inductive MdzError where
  | NONE
  | LICENSE
  | DATA
  | CAPACITY
  | BIG_SIZE
  | TERMINATOR
  | ITEMS
  | ZERO_COUNT
  | ZERO_SIZE
  | BIG_LEFT
  | BIG_RIGHT
  | BIG_COUNT
  | OVERLAP
  | BIG_REPLACE
  | OVERLAP_REPLACE
  | REPLACE_TYPE
  deriving DecidableEq, Repr

/-- A bound string: metadata header (size, capacity) plus the content region
of the attached buffer.  `data` holds the `capacity + 1` content/terminator
bytes that follow the 4 reserved metadata bytes of the raw buffer. -/
structure Ansi16 where
  data : List Nat
  size : Nat
  capacity : Nat
  deriving DecidableEq, Repr

/-- The not-found / invalid sentinel returned by the search functions
(`size_t` fixed at 64 bits). -/
def SIZE_MAX : Nat := 2 ^ 64 - 1

/-- Bytes `[a, b)` of a buffer. -/
def seg (s : List Nat) (a b : Nat) : List Nat := (s.take b).drop a

/-- The bound-string invariant of the spec's data model: the content region
has exactly `capacity + 1` bytes, `size ≤ capacity`, and the terminator byte
sits at content offset `size`. -/
def wf (s : Ansi16) : Prop :=
  s.data.length = s.capacity + 1 ∧ s.size ≤ s.capacity ∧ s.data.getD s.size 1 = 0

instance (s : Ansi16) : Decidable (wf s) := by unfold wf; infer_instance

/-- The 16-bit variant: a capacity beyond `65535` is unrepresentable and
rejected by the "Capacity is too large" check. -/
def capTooLarge (s : Ansi16) : Prop := 65535 < s.capacity

instance (s : Ansi16) : Decidable (capTooLarge s) := by unfold capTooLarge; infer_instance

/-- Modelled from the spec: the body of `mdz_ansi_16_attach` is not in src/.
Contract from `mdz_ansi_16.h` lines 61-75: license check first, then NULL
buffer, then `nBufferSize < 5`; on success the string is bound to the
content region (bytes `[4, nBufferSize)` of the raw buffer), capacity is
`nBufferSize - 5`, size is `0`, and the terminator is written at content
offset `0`. -/
def mdz_ansi_16_attach (lic : Bool) (pcBuffer : Option (List Nat)) (nBufferSize : Nat) :
    MdzError × Option Ansi16 :=
  if lic = false then (.LICENSE, none)
  else
    match pcBuffer with
    | none => (.DATA, none)
    | some raw =>
        if nBufferSize < 5 then (.CAPACITY, none)
        else (.NONE, some { data := (raw.drop 4).set 0 0, size := 0,
                            capacity := nBufferSize - 5 })

/-- Validation chain of `mdz_ansi_16_insert` after the license and NULL-handle
checks, in the order documented in `mdz_ansi_16.h` lines 121-139. -/
def insertCheck (s : Ansi16) (nLeftPos : Nat) (pcItems : Option (List Nat))
    (nCount : Nat) (bOverlap : Bool) : Option MdzError :=
  if s.capacity = 0 ∨ capTooLarge s then some .CAPACITY
  else if s.data.getD s.size 1 ≠ 0 then some .TERMINATOR
  else if pcItems = none then some .ITEMS
  else if nCount = 0 then some .ZERO_COUNT
  else if s.size < nLeftPos then some .BIG_LEFT
  else if s.capacity < s.size + nCount then some .BIG_COUNT
  else if bOverlap then some .OVERLAP
  else none

/-- Modelled from the spec: successful-path semantics of insert (spec §4.3) —
shift `[nLeftPos, size)` right by `nCount`, write the items into the gap,
re-terminate at `size + nCount`; bytes beyond the new terminator keep their
old values. -/
def insertApply (s : Ansi16) (nLeftPos : Nat) (its : List Nat) (nCount : Nat) : Ansi16 :=
  { data := s.data.take nLeftPos ++ its.take nCount ++ seg s.data nLeftPos s.size
      ++ [0] ++ s.data.drop (s.size + nCount + 1),
    size := s.size + nCount,
    capacity := s.capacity }

/-- Modelled from the spec: the body of `mdz_ansi_16_insert` is not in src/;
error contract from `mdz_ansi_16.h` lines 121-139, mutation semantics from
spec §4.3.  `bOverlap` is the (address-level) result of the overlap test
between `[Data; Data + Size + nCount]` and the item buffer. -/
def mdz_ansi_16_insert (lic : Bool) (ps : Option Ansi16) (nLeftPos : Nat)
    (pcItems : Option (List Nat)) (nCount : Nat) (bOverlap : Bool) :
    MdzError × Option Ansi16 :=
  if lic = false then (.LICENSE, ps)
  else
    match ps with
    | none => (.DATA, none)
    | some s =>
        match insertCheck s nLeftPos pcItems nCount bOverlap with
        | some e => (e, some s)
        | none => (.NONE, some (insertApply s nLeftPos (pcItems.getD []) nCount))

/-- Validation chain of `mdz_ansi_16_removeFrom` after the license and
NULL-handle checks, in the order documented in `mdz_ansi_16.h` lines 345-362. -/
def removeFromCheck (s : Ansi16) (nLeftPos nCount : Nat) : Option MdzError :=
  if capTooLarge s then some .CAPACITY
  else if s.capacity < s.size then some .BIG_SIZE
  else if s.data.getD s.size 1 ≠ 0 then some .TERMINATOR
  else if s.size = 0 then some .ZERO_SIZE
  else if nCount = 0 then some .ZERO_COUNT
  else if s.size ≤ nLeftPos then some .BIG_LEFT
  else if s.size - nLeftPos < nCount then some .BIG_COUNT
  else none

/-- Modelled from the spec: successful-path semantics of removeFrom (spec
§4.3) — shift `[nLeftPos + nCount, size)` left by `nCount`, re-terminate at
`size - nCount`; bytes past the new terminator keep their old values. -/
def removeFromApply (s : Ansi16) (nLeftPos nCount : Nat) : Ansi16 :=
  { data := s.data.take nLeftPos ++ seg s.data (nLeftPos + nCount) s.size
      ++ [0] ++ s.data.drop (s.size - nCount + 1),
    size := s.size - nCount,
    capacity := s.capacity }

/-- Modelled from the spec: the body of `mdz_ansi_16_removeFrom` is not in
src/; error contract from `mdz_ansi_16.h` lines 345-362, mutation semantics
from spec §4.3. -/
def mdz_ansi_16_removeFrom (lic : Bool) (ps : Option Ansi16) (nLeftPos nCount : Nat) :
    MdzError × Option Ansi16 :=
  if lic = false then (.LICENSE, ps)
  else
    match ps with
    | none => (.DATA, none)
    | some s =>
        match removeFromCheck s nLeftPos nCount with
        | some e => (e, some s)
        | none => (.NONE, some (removeFromApply s nLeftPos nCount))

example :
    mdz_ansi_16_attach true (some [9, 9, 9, 9, 7, 7, 7]) 7 =
      (.NONE, some { data := [0, 7, 7], size := 0, capacity := 2 }) := by decide

example :
    mdz_ansi_16_insert true (some { data := [10, 20, 0, 5], size := 2, capacity := 3 })
      1 (some [30]) 1 false =
      (.NONE, some { data := [10, 30, 20, 0], size := 3, capacity := 3 }) := by decide

example :
    mdz_ansi_16_removeFrom true (some { data := [10, 30, 20, 0], size := 3, capacity := 3 })
      1 1 =
      (.NONE, some { data := [10, 20, 0, 0], size := 2, capacity := 3 }) := by decide

/-- C1: attach fails with `CAPACITY` when the raw length is below 5, with
`DATA` when the raw buffer is absent, with `LICENSE` when the licensing flag
is unset (the checks fire in the header's order license → data → capacity);
on success the bound string has capacity `rawLength - 5`, size `0`, and the
terminator written at content offset `0`. -/
theorem c1_attach_contract (lic : Bool) (raw : Option (List Nat)) (n : Nat) :
    (lic = false → mdz_ansi_16_attach lic raw n = (.LICENSE, none)) ∧
    (lic = true → raw = none → mdz_ansi_16_attach lic raw n = (.DATA, none)) ∧
    (∀ l, lic = true → raw = some l → n < 5 →
      mdz_ansi_16_attach lic raw n = (.CAPACITY, none)) ∧
    (∀ l, lic = true → raw = some l → l.length = n → 5 ≤ n →
      ∃ s, mdz_ansi_16_attach lic raw n = (.NONE, some s) ∧
        s.capacity = n - 5 ∧ s.size = 0 ∧ s.data.getD 0 1 = 0) := by
  refine ⟨?_, ?_, ?_, ?_⟩
  · intro h; simp [mdz_ansi_16_attach, h]
  · intro h h2; subst h2; simp [mdz_ansi_16_attach, h]
  · intro l h hr hn; subst hr; simp [mdz_ansi_16_attach, h, hn]
  · intro l h hr hlen hn; subst hr
    have h5 : ¬ n < 5 := by omega
    refine ⟨⟨(l.drop 4).set 0 0, 0, n - 5⟩, ?_, rfl, rfl, ?_⟩
    · simp [mdz_ansi_16_attach, h, h5]
    · have hlen4 : (l.drop 4).length = n - 4 := by simp [hlen]
      cases h4 : l.drop 4 with
      | nil => rw [h4] at hlen4; simp at hlen4; omega
      | cons a as => simp [h4]

theorem c1_attach_contract_witness :
    ∃ s, mdz_ansi_16_attach true (some [9, 9, 9, 9, 7]) 5 = (.NONE, some s) ∧
      s.capacity = 5 - 5 ∧ s.size = 0 ∧ s.data.getD 0 1 = 0 :=
  (c1_attach_contract true (some [9, 9, 9, 9, 7]) 5).2.2.2 [9, 9, 9, 9, 7]
    rfl rfl (by decide) (by decide)

/-- C10: on a bound string of capacity 0 — which attach legally produces from
a 5-byte raw buffer — insert always fails with `CAPACITY`, whatever the
position, item buffer (even NULL), count (even 0) and overlap situation: the
capacity check is ordered before the item/count/position/overlap checks. -/
theorem c10_insert_capacity_zero (s : Ansi16) (hcap : s.capacity = 0)
    (nLeftPos : Nat) (pcItems : Option (List Nat)) (nCount : Nat) (bOverlap : Bool) :
    mdz_ansi_16_insert true (some s) nLeftPos pcItems nCount bOverlap = (.CAPACITY, some s)
    ∧ ∀ raw : List Nat, raw.length = 5 →
        ∃ t, mdz_ansi_16_attach true (some raw) 5 = (.NONE, some t) ∧ t.capacity = 0 := by
  constructor
  · simp [mdz_ansi_16_insert, insertCheck, hcap]
  · intro raw _
    exact ⟨⟨(raw.drop 4).set 0 0, 0, 0⟩, by simp [mdz_ansi_16_attach], rfl⟩

theorem c10_insert_capacity_zero_witness :
    mdz_ansi_16_insert true (some ⟨[0], 0, 0⟩) 3 none 0 true = (.CAPACITY, some ⟨[0], 0, 0⟩)
    ∧ ∃ t, mdz_ansi_16_attach true (some [9, 9, 9, 9, 9]) 5 = (.NONE, some t) ∧
        t.capacity = 0 :=
  ⟨(c10_insert_capacity_zero ⟨[0], 0, 0⟩ rfl 3 none 0 true).1,
   (c10_insert_capacity_zero ⟨[0], 0, 0⟩ rfl 3 none 0 true).2 [9, 9, 9, 9, 9] (by decide)⟩

theorem getD_append_len (A B : List Nat) (x d : Nat) :
    (A ++ x :: B).getD A.length d = x := by
  induction A with
  | nil => rfl
  | cons a as ih => simpa using ih

theorem seg_len (s : List Nat) (a b : Nat) (hb : b ≤ s.length) (hab : a ≤ b) :
    (seg s a b).length = b - a := by
  simp [seg]; omega

theorem take_append_seg (s : List Nat) (a b : Nat) (hab : a ≤ b) :
    s.take a ++ seg s a b = s.take b := by
  have h1 : (s.take b).take a = s.take a := by rw [List.take_take]; congr 1; omega
  calc s.take a ++ seg s a b = (s.take b).take a ++ (s.take b).drop a := by rw [h1]; rfl
    _ = s.take b := List.take_append_drop _ _

theorem take_succ_of_term (s : List Nat) (n : Nat) (hn : n < s.length)
    (ht : s.getD n 1 = 0) : s.take (n + 1) = s.take n ++ [0] := by
  have h0 : s[n] = 0 := by rw [← List.getD_eq_getElem s 1 hn]; exact ht
  rw [List.take_succ, List.getElem?_eq_getElem hn, h0]; rfl

/-- C7: inserting `items` at a position `nLeftPos ≤ size` from a
non-overlapping buffer when `size + count ≤ capacity`, then removing `count`
bytes from the same position, succeeds in both steps and restores the
original size and content bytes (and the terminator) exactly. -/
theorem c7_insert_removeFrom_roundtrip (s : Ansi16) (hwf : wf s)
    (hcap16 : s.capacity ≤ 65535) (nLeftPos : Nat) (items : List Nat)
    (hl : nLeftPos ≤ s.size) (hcnt : 0 < items.length)
    (hfit : s.size + items.length ≤ s.capacity) :
    ∃ s1 s2,
      mdz_ansi_16_insert true (some s) nLeftPos (some items) items.length false
        = (.NONE, some s1) ∧
      mdz_ansi_16_removeFrom true (some s1) nLeftPos items.length = (.NONE, some s2) ∧
      s2.size = s.size ∧ s2.capacity = s.capacity ∧
      s2.data.take (s.size + 1) = s.data.take (s.size + 1) := by
  obtain ⟨hlen, hsz, hterm⟩ := hwf
  have hins : insertCheck s nLeftPos (some items) items.length false = none := by
    unfold insertCheck
    rw [if_neg (by unfold capTooLarge; omega)]
    rw [if_neg (by simp only [ne_eq, hterm]; simp)]
    rw [if_neg (by simp)]
    rw [if_neg (by omega)]
    rw [if_neg (by omega)]
    rw [if_neg (by omega)]
    simp
  have hstep1 : mdz_ansi_16_insert true (some s) nLeftPos (some items) items.length false
      = (.NONE, some (insertApply s nLeftPos items items.length)) := by
    simp [mdz_ansi_16_insert, hins]
  set s1 := insertApply s nLeftPos items items.length with hs1def
  have hs1data : s1.data
      = (s.data.take nLeftPos ++ items ++ seg s.data nLeftPos s.size)
        ++ 0 :: s.data.drop (s.size + items.length + 1) := by
    simp [hs1def, insertApply, List.take_length]
  have hs1size : s1.size = s.size + items.length := rfl
  have hs1cap : s1.capacity = s.capacity := rfl
  have hlt : (s.data.take nLeftPos).length = nLeftPos := by
    simp [List.length_take, hlen]; omega
  have hlA : (s.data.take nLeftPos ++ items ++ seg s.data nLeftPos s.size).length
      = s.size + items.length := by
    simp [seg, hlen]; omega
  have hterm1 : s1.data.getD s1.size 1 = 0 := by
    rw [hs1data, hs1size, ← hlA]; exact getD_append_len _ _ 0 1
  have hrm : removeFromCheck s1 nLeftPos items.length = none := by
    unfold removeFromCheck
    rw [if_neg (by unfold capTooLarge; rw [hs1cap]; omega)]
    rw [if_neg (by rw [hs1cap, hs1size]; omega)]
    rw [if_neg (by simp only [ne_eq, hterm1]; simp)]
    rw [if_neg (by rw [hs1size]; omega)]
    rw [if_neg (by omega)]
    rw [if_neg (by rw [hs1size]; omega)]
    rw [if_neg (by rw [hs1size]; omega)]
  have hstep2 : mdz_ansi_16_removeFrom true (some s1) nLeftPos items.length
      = (.NONE, some (removeFromApply s1 nLeftPos items.length)) := by
    simp [mdz_ansi_16_removeFrom, hrm]
  have ha : s1.data.take nLeftPos = s.data.take nLeftPos := by
    rw [hs1data]
    have hre : (s.data.take nLeftPos ++ items ++ seg s.data nLeftPos s.size)
        ++ 0 :: s.data.drop (s.size + items.length + 1)
        = s.data.take nLeftPos ++ (items ++ (seg s.data nLeftPos s.size
            ++ 0 :: s.data.drop (s.size + items.length + 1))) := by
      simp [List.append_assoc]
    rw [hre, List.take_left' hlt]
  have hlti : (s.data.take nLeftPos ++ items).length = nLeftPos + items.length := by
    simp [hlt]
  have hb : seg s1.data (nLeftPos + items.length) (s.size + items.length)
      = seg s.data nLeftPos s.size := by
    show (s1.data.take (s.size + items.length)).drop (nLeftPos + items.length) = _
    rw [hs1data, List.take_left' hlA, List.drop_left' hlti]
  have hseglen : (seg s.data nLeftPos s.size).length = s.size - nLeftPos :=
    seg_len s.data nLeftPos s.size (by omega) hl
  have hX : (s.data.take nLeftPos ++ seg s.data nLeftPos s.size ++ [0]).length
      = s.size + 1 := by
    simp [hlt, hseglen]; omega
  refine ⟨s1, removeFromApply s1 nLeftPos items.length, hstep1, hstep2, ?_, ?_, ?_⟩
  · show s1.size - items.length = s.size
    rw [hs1size]; omega
  · exact hs1cap
  · have e1 : (removeFromApply s1 nLeftPos items.length).data
        = (s.data.take nLeftPos ++ seg s.data nLeftPos s.size ++ [0])
          ++ s1.data.drop (s.size + 1) := by
      show s1.data.take nLeftPos ++ seg s1.data (nLeftPos + items.length) s1.size
          ++ [0] ++ s1.data.drop (s1.size - items.length + 1) = _
      rw [hs1size, Nat.add_sub_cancel, ha, hb]
    rw [e1, List.take_left' hX, take_append_seg s.data nLeftPos s.size hl,
      ← take_succ_of_term s.data s.size (by omega) hterm]

theorem c7_insert_removeFrom_roundtrip_witness :
    ∃ s1 s2,
      mdz_ansi_16_insert true (some ⟨[10, 0, 0, 0], 1, 3⟩) 0 (some [7]) 1 false
        = (.NONE, some s1) ∧
      mdz_ansi_16_removeFrom true (some s1) 0 1 = (.NONE, some s2) ∧
      s2.size = 1 ∧ s2.capacity = 3 ∧
      s2.data.take 2 = [10, 0, 0, 0].take 2 :=
  c7_insert_removeFrom_roundtrip ⟨[10, 0, 0, 0], 1, 3⟩ (by decide) (by decide)
    0 [7] (by decide) (by decide) (by decide)

/-- Validation chain of `mdz_ansi_16_reverse` after the license and NULL-handle
checks, in the order documented in `mdz_ansi_16.h` lines 540-555 (note the
strict requirement `nLeftPos < nRightPos`). -/
def reverseCheck (s : Ansi16) (nLeftPos nRightPos : Nat) : Option MdzError :=
  if capTooLarge s then some .CAPACITY
  else if s.capacity < s.size then some .BIG_SIZE
  else if s.data.getD s.size 1 ≠ 0 then some .TERMINATOR
  else if s.size ≤ nRightPos then some .BIG_RIGHT
  else if nRightPos ≤ nLeftPos then some .BIG_LEFT
  else none

/-- Modelled from the spec: successful-path semantics of reverse (spec §4.3)
— in-place reversal of the inclusive byte range `[nLeftPos, nRightPos]`. -/
def reverseApply (s : Ansi16) (nLeftPos nRightPos : Nat) : Ansi16 :=
  { data := s.data.take nLeftPos ++ (seg s.data nLeftPos (nRightPos + 1)).reverse
      ++ s.data.drop (nRightPos + 1),
    size := s.size, capacity := s.capacity }

/-- Modelled from the spec: the body of `mdz_ansi_16_reverse` is not in src/;
error contract from `mdz_ansi_16.h` lines 540-555, mutation semantics from
spec §4.3. -/
def mdz_ansi_16_reverse (lic : Bool) (ps : Option Ansi16) (nLeftPos nRightPos : Nat) :
    MdzError × Option Ansi16 :=
  if lic = false then (.LICENSE, ps)
  else
    match ps with
    | none => (.DATA, none)
    | some s =>
        match reverseCheck s nLeftPos nRightPos with
        | some e => (e, some s)
        | none => (.NONE, some (reverseApply s nLeftPos nRightPos))

example :
    mdz_ansi_16_reverse true (some { data := [1, 2, 3, 4, 0, 9], size := 4, capacity := 5 })
      1 3 =
      (.NONE, some { data := [1, 4, 3, 2, 0, 9], size := 4, capacity := 5 }) := by decide


theorem getD_drop (l : List Nat) (n m d : Nat) :
    (l.drop n).getD m d = l.getD (n + m) d := by
  simp [List.getD_eq_getElem?_getD, List.getElem?_drop]

theorem Ansi16.ext' (a b : Ansi16) (h1 : a.data = b.data) (h2 : a.size = b.size)
    (h3 : a.capacity = b.capacity) : a = b := by
  cases a; cases b; simp_all

/-- C6: on a valid range `nLeftPos < nRightPos < size`, reverse succeeds, and
applying it a second time over the same range succeeds again and restores the
original string (content bytes, size and capacity) exactly. -/
theorem c6_reverse_involution (s : Ansi16) (hwf : wf s) (hcap16 : s.capacity ≤ 65535)
    (nLeftPos nRightPos : Nat) (hlr : nLeftPos < nRightPos) (hr : nRightPos < s.size) :
    ∃ s1, mdz_ansi_16_reverse true (some s) nLeftPos nRightPos = (.NONE, some s1) ∧
      mdz_ansi_16_reverse true (some s1) nLeftPos nRightPos = (.NONE, some s) := by
  obtain ⟨hlen, hsz, hterm⟩ := hwf
  have hchk : reverseCheck s nLeftPos nRightPos = none := by
    unfold reverseCheck
    rw [if_neg (by unfold capTooLarge; omega)]
    rw [if_neg (by omega)]
    rw [if_neg (by simp only [ne_eq, hterm]; simp)]
    rw [if_neg (by omega)]
    rw [if_neg (by omega)]
  set s1 := reverseApply s nLeftPos nRightPos with hs1def
  have hs1data : s1.data = s.data.take nLeftPos
      ++ (seg s.data nLeftPos (nRightPos + 1)).reverse
      ++ s.data.drop (nRightPos + 1) := rfl
  have hs1sz : s1.size = s.size := rfl
  have hc1 : s1.capacity = s.capacity := rfl
  have hlt : (s.data.take nLeftPos).length = nLeftPos := by
    simp [List.length_take, hlen]; omega
  have hsegr : ((seg s.data nLeftPos (nRightPos + 1)).reverse).length
      = nRightPos + 1 - nLeftPos := by
    rw [List.length_reverse,
      seg_len s.data nLeftPos (nRightPos + 1) (by omega) (by omega)]
  have hpre : (s.data.take nLeftPos
      ++ (seg s.data nLeftPos (nRightPos + 1)).reverse).length = nRightPos + 1 := by
    rw [List.length_append, hlt, hsegr]; omega
  have ha : s1.data.take nLeftPos = s.data.take nLeftPos := by
    rw [hs1data, List.append_assoc, List.take_left' hlt]
  have hb : seg s1.data nLeftPos (nRightPos + 1)
      = (seg s.data nLeftPos (nRightPos + 1)).reverse := by
    show (s1.data.take (nRightPos + 1)).drop nLeftPos = _
    rw [hs1data, List.take_left' hpre, List.drop_left' hlt]
  have hc : s1.data.drop (nRightPos + 1) = s.data.drop (nRightPos + 1) := by
    rw [hs1data, List.drop_left' hpre]
  have hterm1 : s1.data.getD s.size 1 = 0 := by
    rw [hs1data,
      List.getD_append_right _ _ 1 s.size (by rw [hpre]; omega), hpre, getD_drop,
      show nRightPos + 1 + (s.size - (nRightPos + 1)) = s.size from by omega]
    exact hterm
  have hchk1 : reverseCheck s1 nLeftPos nRightPos = none := by
    unfold reverseCheck
    rw [if_neg (by unfold capTooLarge; rw [hc1]; omega)]
    rw [if_neg (by rw [hc1, hs1sz]; omega)]
    rw [if_neg (by simp only [ne_eq, hs1sz, hterm1]; simp)]
    rw [if_neg (by rw [hs1sz]; omega)]
    rw [if_neg (by omega)]
  have hfinal : reverseApply s1 nLeftPos nRightPos = s := by
    apply Ansi16.ext'
    · show s1.data.take nLeftPos ++ (seg s1.data nLeftPos (nRightPos + 1)).reverse
        ++ s1.data.drop (nRightPos + 1) = s.data
      rw [ha, hb, hc, List.reverse_reverse,
        take_append_seg s.data nLeftPos (nRightPos + 1) (by omega)]
      exact List.take_append_drop _ _
    · exact hs1sz
    · exact hc1
  refine ⟨s1, by simp [mdz_ansi_16_reverse, hchk], ?_⟩
  have : mdz_ansi_16_reverse true (some s1) nLeftPos nRightPos
      = (.NONE, some (reverseApply s1 nLeftPos nRightPos)) := by
    simp [mdz_ansi_16_reverse, hchk1]
  rw [this, hfinal]

theorem c6_reverse_involution_witness :
    ∃ s1, mdz_ansi_16_reverse true (some ⟨[1, 2, 3, 0, 9], 3, 4⟩) 0 2 = (.NONE, some s1) ∧
      mdz_ansi_16_reverse true (some s1) 0 2 = (.NONE, some ⟨[1, 2, 3, 0, 9], 3, 4⟩) :=
  c6_reverse_involution ⟨[1, 2, 3, 0, 9], 3, 4⟩ (by decide) (by decide) 0 2
    (by decide) (by decide)

/-- Index of the first occurrence of byte `c` in `l`, if any. -/
def revIndexOf : List Nat → Nat → Option Nat
  | [], _ => none
  | x :: xs, c => if x = c then some 0 else (revIndexOf xs c).map (· + 1)

/-- Modelled from the spec: the Boyer-Moore-Horspool bad-byte shift table of
spec §4.2 — for byte `c`, the distance from the last occurrence of `c` within
`pat[0 .. m-2]` to the end of the pattern, or the pattern length `m` when `c`
does not occur there. -/
def horspoolShift (pat : List Nat) (c : Nat) : Nat :=
  match revIndexOf pat.dropLast.reverse c with
  | some k => k + 1
  | none => pat.length

/-- Does `pat` occur in `s` starting at position `q`? -/
def matchAt (s pat : List Nat) (q : Nat) : Bool := seg s q (q + pat.length) == pat

/-- Modelled from the spec: the Boyer-Moore-Horspool skip-scan of spec §4.2,
searching the window `[pos, stop)` for `pat`; the byte of the text aligned
with the last pattern byte selects the shift.  `fuel` only bounds the
recursion; `stop + 1` steps always suffice. -/
def bmhAux (s pat : List Nat) (stop : Nat) : Nat → Nat → Option Nat
  | 0, _ => none
  | fuel + 1, pos =>
      if pos + pat.length ≤ stop then
        if matchAt s pat pos then some pos
        else bmhAux s pat stop fuel
          (pos + horspoolShift pat (s.getD (pos + pat.length - 1) 0))
      else none

/-- Boyer-Moore-Horspool search for `pat` in `s` over start positions
`[nLeftPos, stop)` (matches must end by `stop`). -/
def bmhFind (s pat : List Nat) (nLeftPos stop : Nat) : Option Nat :=
  bmhAux s pat stop (stop + 1) nLeftPos

/-- The spec's reference algorithm: a naive substring scan trying every start
position in order. -/
def naiveAux (s pat : List Nat) (stop : Nat) : Nat → Nat → Option Nat
  | 0, _ => none
  | fuel + 1, pos =>
      if pos + pat.length ≤ stop then
        if matchAt s pat pos then some pos
        else naiveAux s pat stop fuel (pos + 1)
      else none

/-- Naive reference substring scan (spec §8): first start position in
`[nLeftPos, stop)` where the pattern matches. -/
def naiveFindRef (s pat : List Nat) (nLeftPos stop : Nat) : Option Nat :=
  naiveAux s pat stop (stop + 1) nLeftPos

theorem revIndexOf_some_le {l : List Nat} {c : Nat} (j : Nat)
    (hj : j < l.length) (h : l.getD j 0 = c) :
    ∃ k, revIndexOf l c = some k ∧ k ≤ j := by
  induction l generalizing j with
  | nil => simp at hj
  | cons x xs ih =>
    by_cases hx : x = c
    · exact ⟨0, by simp [revIndexOf, hx], Nat.zero_le j⟩
    · cases j with
      | zero => rw [List.getD_cons_zero] at h; exact absurd h hx
      | succ j' =>
        obtain ⟨k, hk, hkle⟩ := ih j' (by simpa using hj) (by simpa using h)
        exact ⟨k + 1, by simp [revIndexOf, hx, hk], by omega⟩

theorem horspoolShift_pos (pat : List Nat) (hm : 0 < pat.length) (c : Nat) :
    0 < horspoolShift pat c := by
  unfold horspoolShift
  cases revIndexOf pat.dropLast.reverse c with
  | none => simpa using hm
  | some k => simp

theorem revIndexOf_some_lt {l : List Nat} {c k : Nat}
    (h : revIndexOf l c = some k) : k < l.length := by
  induction l generalizing k with
  | nil => simp [revIndexOf] at h
  | cons x xs ih =>
    by_cases hx : x = c
    · simp [revIndexOf, hx] at h; simp [List.length_cons]; omega
    · simp [revIndexOf, hx] at h
      obtain ⟨k', hk', rfl⟩ := h
      have := ih hk'
      simp [List.length_cons]; omega

theorem horspoolShift_le (pat : List Nat) (hm : 0 < pat.length) (c : Nat) :
    horspoolShift pat c ≤ pat.length := by
  unfold horspoolShift
  cases hrev : revIndexOf pat.dropLast.reverse c with
  | none => simp
  | some k =>
    have := revIndexOf_some_lt hrev
    simp only [List.length_reverse, List.length_dropLast] at this
    simp; omega

theorem getD_take (l : List Nat) (n j d : Nat) (hj : j < n) :
    (l.take n).getD j d = l.getD j d := by
  simp [List.getD_eq_getElem?_getD, List.getElem?_take, hj]

theorem seg_getD (s : List Nat) (a b j d : Nat) (hj : a + j < b) :
    (seg s a b).getD j d = s.getD (a + j) d := by
  simp [seg, List.getD_eq_getElem?_getD, List.getElem?_drop, List.getElem?_take, hj]

theorem reverse_getD (l : List Nat) (i d : Nat) (hi : i < l.length) :
    l.reverse.getD i d = l.getD (l.length - 1 - i) d := by
  simp [List.getD_eq_getElem?_getD, List.getElem?_reverse hi]

theorem horspool_no_skip (s pat : List Nat) (pos q : Nat) (hm : 0 < pat.length)
    (hpq : pos < q) (_hq : q + pat.length ≤ s.length) (hmatch : matchAt s pat q = true) :
    pos + horspoolShift pat (s.getD (pos + pat.length - 1) 0) ≤ q := by
  by_cases hcase : pos + pat.length ≤ q
  · have := horspoolShift_le pat hm (s.getD (pos + pat.length - 1) 0); omega
  · have hqlt : q < pos + pat.length := by omega
    have hm2 : 2 ≤ pat.length := by omega
    have hseg : seg s q (q + pat.length) = pat := by simpa [matchAt] using hmatch
    have hpatj : pat.getD (pos + pat.length - 1 - q) 0 = s.getD (pos + pat.length - 1) 0 := by
      have h1 : (seg s q (q + pat.length)).getD (pos + pat.length - 1 - q) 0
          = s.getD (q + (pos + pat.length - 1 - q)) 0 :=
        seg_getD s q (q + pat.length) _ 0 (by omega)
      rw [hseg] at h1
      rw [h1]
      congr 1
      omega
    have hdl : pat.dropLast.getD (pos + pat.length - 1 - q) 0
        = pat.getD (pos + pat.length - 1 - q) 0 := by
      rw [List.dropLast_eq_take]
      exact getD_take pat (pat.length - 1) _ 0 (by omega)
    have hrev : pat.dropLast.reverse.getD (pat.length - 2 - (pos + pat.length - 1 - q)) 0
        = pat.dropLast.getD (pos + pat.length - 1 - q) 0 := by
      have h1 := reverse_getD pat.dropLast (pat.length - 2 - (pos + pat.length - 1 - q)) 0
        (by simp [List.length_dropLast]; omega)
      have hidx : pat.dropLast.length - 1 - (pat.length - 2 - (pos + pat.length - 1 - q))
          = pos + pat.length - 1 - q := by
        rw [List.length_dropLast]; omega
      rw [h1, hidx]
    obtain ⟨k, hk, hkle⟩ := revIndexOf_some_le (l := pat.dropLast.reverse)
      (c := s.getD (pos + pat.length - 1) 0)
      (pat.length - 2 - (pos + pat.length - 1 - q))
      (by simp [List.length_dropLast]; omega)
      (by rw [hrev, hdl]; exact hpatj)
    unfold horspoolShift
    rw [hk]
    show pos + (k + 1) ≤ q
    omega

theorem bmhAux_none_char (s pat : List Nat) (stop : Nat) (hm : 0 < pat.length)
    (hstop : stop ≤ s.length) :
    ∀ fuel pos, stop ≤ fuel + pos → bmhAux s pat stop fuel pos = none →
      ∀ q, pos ≤ q → q + pat.length ≤ stop → matchAt s pat q = false := by
  intro fuel
  induction fuel with
  | zero => intro pos hfuel _ q hq1 hq2; exfalso; omega
  | succ fuel ih =>
    intro pos hfuel hnone q hq1 hq2
    simp only [bmhAux] at hnone
    by_cases hin : pos + pat.length ≤ stop
    · rw [if_pos hin] at hnone
      by_cases hmt : matchAt s pat pos = true
      · rw [if_pos hmt] at hnone; exact absurd hnone (by simp)
      · rw [if_neg hmt] at hnone
        have hsp := horspoolShift_pos pat hm (s.getD (pos + pat.length - 1) 0)
        by_cases hqpos : q = pos
        · subst hqpos; simpa using hmt
        · by_contra hq
          simp only [Bool.not_eq_false] at hq
          have hskip := horspool_no_skip s pat pos q hm (by omega) (by omega) hq
          have := ih (pos + horspoolShift pat (s.getD (pos + pat.length - 1) 0))
            (by omega) hnone q (by omega) hq2
          rw [this] at hq; exact absurd hq (by decide)
    · exfalso; omega

theorem bmhAux_some_char (s pat : List Nat) (stop : Nat) (hm : 0 < pat.length)
    (hstop : stop ≤ s.length) :
    ∀ fuel pos q', stop ≤ fuel + pos → bmhAux s pat stop fuel pos = some q' →
      pos ≤ q' ∧ q' + pat.length ≤ stop ∧ matchAt s pat q' = true ∧
        ∀ q, pos ≤ q → q < q' → matchAt s pat q = false := by
  intro fuel
  induction fuel with
  | zero => intro pos q' hfuel h; simp [bmhAux] at h
  | succ fuel ih =>
    intro pos q' hfuel h
    simp only [bmhAux] at h
    by_cases hin : pos + pat.length ≤ stop
    · rw [if_pos hin] at h
      by_cases hmt : matchAt s pat pos = true
      · rw [if_pos hmt] at h
        have : pos = q' := by simpa using h
        subst this
        exact ⟨le_refl _, hin, hmt, fun q hq1 hq2 => absurd rfl (by omega : ¬ pos = pos)⟩
      · rw [if_neg hmt] at h
        have hsp := horspoolShift_pos pat hm (s.getD (pos + pat.length - 1) 0)
        obtain ⟨h1, h2, h3, h4⟩ :=
          ih (pos + horspoolShift pat (s.getD (pos + pat.length - 1) 0)) q' (by omega) h
        refine ⟨by omega, h2, h3, ?_⟩
        intro q hq1 hq2
        by_cases hqq : pos + horspoolShift pat (s.getD (pos + pat.length - 1) 0) ≤ q
        · exact h4 q hqq hq2
        · by_cases hqpos : q = pos
          · subst hqpos; simpa using hmt
          · by_contra hq
            simp only [Bool.not_eq_false] at hq
            have := horspool_no_skip s pat pos q hm (by omega) (by omega) hq
            omega
    · rw [if_neg hin] at h; exact absurd h (by simp)

theorem naiveAux_none_char (s pat : List Nat) (stop : Nat) (hm : 0 < pat.length) :
    ∀ fuel pos, stop ≤ fuel + pos → naiveAux s pat stop fuel pos = none →
      ∀ q, pos ≤ q → q + pat.length ≤ stop → matchAt s pat q = false := by
  intro fuel
  induction fuel with
  | zero => intro pos hfuel _ q hq1 hq2; exfalso; omega
  | succ fuel ih =>
    intro pos hfuel hnone q hq1 hq2
    simp only [naiveAux] at hnone
    by_cases hin : pos + pat.length ≤ stop
    · rw [if_pos hin] at hnone
      by_cases hmt : matchAt s pat pos = true
      · rw [if_pos hmt] at hnone; exact absurd hnone (by simp)
      · rw [if_neg hmt] at hnone
        by_cases hqpos : q = pos
        · subst hqpos; simpa using hmt
        · exact ih (pos + 1) (by omega) hnone q (by omega) hq2
    · exfalso; omega

theorem naiveAux_some_char (s pat : List Nat) (stop : Nat) :
    ∀ fuel pos q', stop ≤ fuel + pos → naiveAux s pat stop fuel pos = some q' →
      pos ≤ q' ∧ q' + pat.length ≤ stop ∧ matchAt s pat q' = true ∧
        ∀ q, pos ≤ q → q < q' → matchAt s pat q = false := by
  intro fuel
  induction fuel with
  | zero => intro pos q' hfuel h; simp [naiveAux] at h
  | succ fuel ih =>
    intro pos q' hfuel h
    simp only [naiveAux] at h
    by_cases hin : pos + pat.length ≤ stop
    · rw [if_pos hin] at h
      by_cases hmt : matchAt s pat pos = true
      · rw [if_pos hmt] at h
        have : pos = q' := by simpa using h
        subst this
        exact ⟨le_refl _, hin, hmt, fun q hq1 hq2 => absurd rfl (by omega : ¬ pos = pos)⟩
      · rw [if_neg hmt] at h
        obtain ⟨h1, h2, h3, h4⟩ := ih (pos + 1) q' (by omega) h
        refine ⟨by omega, h2, h3, ?_⟩
        intro q hq1 hq2
        by_cases hqpos : q = pos
        · subst hqpos; simpa using hmt
        · exact h4 q (by omega) hq2
    · rw [if_neg hin] at h; exact absurd h (by simp)

/-- The Boyer-Moore-Horspool scan and the naive reference scan return the same
result on every window and every non-empty pattern. -/
theorem bmhFind_eq_naiveFindRef (s pat : List Nat) (l stop : Nat)
    (hm : 0 < pat.length) (hstop : stop ≤ s.length) :
    bmhFind s pat l stop = naiveFindRef s pat l stop := by
  unfold bmhFind naiveFindRef
  cases hb : bmhAux s pat stop (stop + 1) l with
  | none =>
    cases hn : naiveAux s pat stop (stop + 1) l with
    | none => rfl
    | some q =>
      obtain ⟨h1, h2, h3, _⟩ := naiveAux_some_char s pat stop (stop + 1) l q (by omega) hn
      have := bmhAux_none_char s pat stop hm hstop (stop + 1) l (by omega) hb q h1 h2
      rw [this] at h3; exact absurd h3 (by decide)
  | some q1 =>
    cases hn : naiveAux s pat stop (stop + 1) l with
    | none =>
      obtain ⟨h1, h2, h3, _⟩ := bmhAux_some_char s pat stop hm hstop (stop + 1) l q1 (by omega) hb
      have := naiveAux_none_char s pat stop hm (stop + 1) l (by omega) hn q1 h1 h2
      rw [this] at h3; exact absurd h3 (by decide)
    | some q2 =>
      obtain ⟨hb1, hb2, hb3, hb4⟩ :=
        bmhAux_some_char s pat stop hm hstop (stop + 1) l q1 (by omega) hb
      obtain ⟨hn1, hn2, hn3, hn4⟩ := naiveAux_some_char s pat stop (stop + 1) l q2 (by omega) hn
      congr 1
      by_contra hne
      rcases Nat.lt_or_ge q1 q2 with hlt | hge
      · have := hn4 q1 hb1 hlt; rw [this] at hb3; exact absurd hb3 (by decide)
      · have hlt2 : q2 < q1 := by omega
        have := hb4 q2 hn1 hlt2; rw [this] at hn3; exact absurd hn3 (by decide)

/-- Validation chain of `mdz_ansi_16_find` after the license and NULL-handle
checks, in the order documented in `mdz_ansi_16.h` lines 167-191; note that a
pattern longer than the search window is the documented `MDZ_ERROR_BIG_COUNT`
validation error. -/
def findCheck (s : Ansi16) (nLeftPos nRightPos : Nat) (pcItems : Option (List Nat))
    (nCount : Nat) : Option MdzError :=
  if capTooLarge s then some .CAPACITY
  else if s.capacity < s.size then some .BIG_SIZE
  else if s.data.getD s.size 1 ≠ 0 then some .TERMINATOR
  else if pcItems = none then some .ITEMS
  else if nCount = 0 then some .ZERO_COUNT
  else if s.size ≤ nRightPos then some .BIG_RIGHT
  else if nRightPos < nLeftPos then some .BIG_LEFT
  else if nRightPos + 1 - nLeftPos < nCount then some .BIG_COUNT
  else none

/-- Modelled from the spec: the body of `mdz_ansi_16_find` is not in src/;
error contract from `mdz_ansi_16.h` lines 167-191, search algorithm
(Boyer-Moore-Horspool over the inclusive window) from spec §4.2.  Returns the
0-based position of the first match, or `SIZE_MAX` on no match or error. -/
def mdz_ansi_16_find (lic : Bool) (ps : Option Ansi16) (nLeftPos nRightPos : Nat)
    (pcItems : Option (List Nat)) (nCount : Nat) : Nat × MdzError :=
  if lic = false then (SIZE_MAX, .LICENSE)
  else
    match ps with
    | none => (SIZE_MAX, .DATA)
    | some s =>
        match findCheck s nLeftPos nRightPos pcItems nCount with
        | some e => (SIZE_MAX, e)
        | none =>
            match bmhFind s.data ((pcItems.getD []).take nCount) nLeftPos (nRightPos + 1) with
            | some q => (q, .NONE)
            | none => (SIZE_MAX, .NONE)

example :
    mdz_ansi_16_find true (some ⟨[65, 66, 65, 66, 0, 9], 4, 5⟩) 0 3 (some [66, 65]) 2
      = (1, .NONE) := by decide

example :
    mdz_ansi_16_find true (some ⟨[65, 66, 65, 66, 0, 9], 4, 5⟩) 2 3 (some [66, 65]) 2
      = (SIZE_MAX, .NONE) := by decide

/-- C4 (amended): over a valid window and a non-empty pattern, the
Boyer-Moore-Horspool find returns exactly the position of the naive reference
scan whenever the pattern fits the window; when the pattern is longer than
the window, find returns the `SIZE_MAX` sentinel but reports the documented
validation error `MDZ_ERROR_BIG_COUNT` (while the naive scan reports
not-found). -/
theorem c4_find_agrees_naive (s : Ansi16) (hwf : wf s) (hcap16 : s.capacity ≤ 65535)
    (nLeftPos nRightPos : Nat) (items : List Nat) (hlr : nLeftPos ≤ nRightPos)
    (hr : nRightPos < s.size) (hcnt : 0 < items.length) :
    (items.length ≤ nRightPos + 1 - nLeftPos →
      mdz_ansi_16_find true (some s) nLeftPos nRightPos (some items) items.length
        = (match naiveFindRef s.data items nLeftPos (nRightPos + 1) with
           | some q => (q, MdzError.NONE)
           | none => (SIZE_MAX, MdzError.NONE))) ∧
    (nRightPos + 1 - nLeftPos < items.length →
      mdz_ansi_16_find true (some s) nLeftPos nRightPos (some items) items.length
        = (SIZE_MAX, MdzError.BIG_COUNT) ∧
      naiveFindRef s.data items nLeftPos (nRightPos + 1) = none) := by
  obtain ⟨hlen, hsz, hterm⟩ := hwf
  constructor
  · intro hfit
    have hchk : findCheck s nLeftPos nRightPos (some items) items.length = none := by
      unfold findCheck
      rw [if_neg (by unfold capTooLarge; omega)]
      rw [if_neg (by omega)]
      rw [if_neg (by simp only [ne_eq, hterm]; simp)]
      rw [if_neg (by simp)]
      rw [if_neg (by omega)]
      rw [if_neg (by omega)]
      rw [if_neg (by omega)]
      rw [if_neg (by omega)]
    have hunfold : mdz_ansi_16_find true (some s) nLeftPos nRightPos (some items)
        items.length
        = (match bmhFind s.data items nLeftPos (nRightPos + 1) with
           | some q => (q, MdzError.NONE)
           | none => (SIZE_MAX, MdzError.NONE)) := by
      simp [mdz_ansi_16_find, hchk, List.take_length]
    rw [hunfold, bmhFind_eq_naiveFindRef s.data items nLeftPos (nRightPos + 1) hcnt
      (by omega)]
  · intro hbig
    constructor
    · have hchk : findCheck s nLeftPos nRightPos (some items) items.length
          = some .BIG_COUNT := by
        unfold findCheck
        rw [if_neg (by unfold capTooLarge; omega)]
        rw [if_neg (by omega)]
        rw [if_neg (by simp only [ne_eq, hterm]; simp)]
        rw [if_neg (by simp)]
        rw [if_neg (by omega)]
        rw [if_neg (by omega)]
        rw [if_neg (by omega)]
        rw [if_pos (by omega)]
      simp [mdz_ansi_16_find, hchk]
    · cases hn : naiveFindRef s.data items nLeftPos (nRightPos + 1) with
      | none => rfl
      | some q =>
        unfold naiveFindRef at hn
        obtain ⟨h1, h2, _, _⟩ := naiveAux_some_char s.data items (nRightPos + 1)
          (nRightPos + 1 + 1) nLeftPos q (by omega) hn
        exfalso; omega

theorem c4_find_agrees_naive_witness :
    mdz_ansi_16_find true (some ⟨[65, 66, 65, 0, 0], 3, 4⟩) 0 2 (some [66, 65]) 2
      = (match naiveFindRef [65, 66, 65, 0, 0] [66, 65] 0 3 with
         | some q => (q, MdzError.NONE)
         | none => (SIZE_MAX, MdzError.NONE)) :=
  (c4_find_agrees_naive ⟨[65, 66, 65, 0, 0], 3, 4⟩ (by decide) (by decide) 0 2 [66, 65]
    (by decide) (by decide) (by decide)).1 (by decide)

/-- C4 (counterexample): with pattern length 2 over a window of length 1,
find does return the `SIZE_MAX` sentinel, but it reports the validation
error `MDZ_ERROR_BIG_COUNT` — not "no error" as the claim states. -/
theorem c4_long_pattern_reports_error :
    mdz_ansi_16_find true (some ⟨[65, 66, 0, 0], 2, 3⟩) 0 0 (some [65, 66]) 2
      = (SIZE_MAX, MdzError.BIG_COUNT) ∧ MdzError.BIG_COUNT ≠ MdzError.NONE := by
  constructor
  · decide
  · decide

/-- Modelled from the spec: the upward counting scan of spec §4.4 — candidate
start positions `[pos, bound)` are tried in order; a hit counts one and
advances by `step` (1 when overlaps are allowed, the full match length
otherwise), a miss advances by 1.  `fuel` only bounds the recursion. -/
def scanUp (P : Nat → Bool) (step bound : Nat) : Nat → Nat → Nat
  | 0, _ => 0
  | fuel + 1, pos =>
      if pos < bound then
        if P pos then 1 + scanUp P step bound fuel (pos + step)
        else scanUp P step bound fuel (pos + 1)
      else 0

/-- Modelled from the spec: the downward counting scan of spec §4.4 —
candidate start positions `[low, q]` are tried from the right; a hit counts
one and advances down by `step`, a miss advances down by 1. -/
def scanDown (P : Nat → Bool) (step low : Nat) : Nat → Nat → Nat
  | 0, _ => 0
  | fuel + 1, q =>
      if low ≤ q then
        if P q then
          1 + (if low + step ≤ q then scanDown P step low fuel (q - step) else 0)
        else
          (if low < q then scanDown P step low fuel (q - 1) else 0)
      else 0

theorem scanUp_pairwise_le (P : Nat → Bool) (m bound : Nat) (hm : 0 < m) :
    ∀ fuel pos qs, bound ≤ fuel + pos →
      List.Pairwise (fun a b => a + m ≤ b) qs →
      (∀ q ∈ qs, P q = true ∧ pos ≤ q ∧ q < bound) →
      qs.length ≤ scanUp P m bound fuel pos := by
  intro fuel
  induction fuel with
  | zero =>
    intro pos qs hfuel hpw hmem
    cases qs with
    | nil => simp [scanUp]
    | cons q rest => obtain ⟨_, h2, h3⟩ := hmem q (by simp); omega
  | succ fuel ih =>
    intro pos qs hfuel hpw hmem
    simp only [scanUp]
    by_cases hin : pos < bound
    · rw [if_pos hin]
      by_cases hP : P pos = true
      · rw [if_pos hP]
        cases qs with
        | nil => simp
        | cons q rest =>
          rw [List.pairwise_cons] at hpw
          obtain ⟨hq1, hq2⟩ := hpw
          obtain ⟨hPq, hposq, hqb⟩ := hmem q (by simp)
          have hrest : rest.length ≤ scanUp P m bound fuel (pos + m) := by
            apply ih (pos + m) rest (by omega) hq2
            intro q' hq'
            obtain ⟨hPq', hpos', hb'⟩ := hmem q' (by simp [hq'])
            have := hq1 q' hq'
            exact ⟨hPq', by omega, hb'⟩
          simp only [List.length_cons]; omega
      · rw [if_neg hP]
        apply ih (pos + 1) qs (by omega) hpw
        intro q hq
        obtain ⟨hPq, hposq, hqb⟩ := hmem q hq
        refine ⟨hPq, ?_, hqb⟩
        rcases Nat.eq_or_lt_of_le hposq with heq | hlt
        · exfalso; rw [← heq] at hPq; exact hP hPq
        · omega
    · rw [if_neg hin]
      cases qs with
      | nil => simp
      | cons q rest => obtain ⟨_, h2, h3⟩ := hmem q (by simp); omega

theorem scanUp_exists_pairwise (P : Nat → Bool) (m bound : Nat) :
    ∀ fuel pos, ∃ qs : List Nat, List.Pairwise (fun a b => a + m ≤ b) qs ∧
      (∀ q ∈ qs, P q = true ∧ pos ≤ q ∧ q < bound) ∧
      qs.length = scanUp P m bound fuel pos := by
  intro fuel
  induction fuel with
  | zero => intro pos; exact ⟨[], by simp, by simp, by simp [scanUp]⟩
  | succ fuel ih =>
    intro pos
    simp only [scanUp]
    by_cases hin : pos < bound
    · rw [if_pos hin]
      by_cases hP : P pos = true
      · rw [if_pos hP]
        obtain ⟨qs', hpw', hmem', hlen'⟩ := ih (pos + m)
        refine ⟨pos :: qs', ?_, ?_, ?_⟩
        · rw [List.pairwise_cons]
          exact ⟨fun q hq => by obtain ⟨_, h2, _⟩ := hmem' q hq; omega, hpw'⟩
        · intro q hq
          rcases List.mem_cons.mp hq with rfl | hq'
          · exact ⟨hP, le_refl _, hin⟩
          · obtain ⟨h1, h2, h3⟩ := hmem' q hq'; exact ⟨h1, by omega, h3⟩
        · simp only [List.length_cons, hlen']; omega
      · rw [if_neg hP]
        obtain ⟨qs', hpw', hmem', hlen'⟩ := ih (pos + 1)
        exact ⟨qs', hpw',
          fun q hq => by obtain ⟨h1, h2, h3⟩ := hmem' q hq; exact ⟨h1, by omega, h3⟩,
          hlen'⟩
    · rw [if_neg hin]
      exact ⟨[], by simp, by simp, by simp⟩

theorem scanDown_pairwise_le (P : Nat → Bool) (m low : Nat) (hm : 0 < m) :
    ∀ fuel q qs, q + 1 ≤ fuel + low →
      List.Pairwise (fun a b => b + m ≤ a) qs →
      (∀ x ∈ qs, P x = true ∧ low ≤ x ∧ x ≤ q) →
      qs.length ≤ scanDown P m low fuel q := by
  intro fuel
  induction fuel with
  | zero =>
    intro q qs hfuel hpw hmem
    cases qs with
    | nil => simp [scanDown]
    | cons x rest => obtain ⟨_, h2, h3⟩ := hmem x (by simp); omega
  | succ fuel ih =>
    intro q qs hfuel hpw hmem
    simp only [scanDown]
    by_cases hlq : low ≤ q
    · rw [if_pos hlq]
      by_cases hP : P q = true
      · rw [if_pos hP]
        cases qs with
        | nil => simp
        | cons x rest =>
          rw [List.pairwise_cons] at hpw
          obtain ⟨hx1, hx2⟩ := hpw
          obtain ⟨hPx, hlx, hxq⟩ := hmem x (by simp)
          by_cases hroom : low + m ≤ q
          · rw [if_pos hroom]
            have hrest : rest.length ≤ scanDown P m low fuel (q - m) := by
              apply ih (q - m) rest (by omega) hx2
              intro y hy
              obtain ⟨hPy, hly, hyq⟩ := hmem y (by simp [hy])
              have := hx1 y hy
              exact ⟨hPy, hly, by omega⟩
            simp only [List.length_cons]; omega
          · rw [if_neg hroom]
            cases rest with
            | nil => simp
            | cons y rest' =>
              obtain ⟨hPy, hly, hyq⟩ := hmem y (by simp)
              have := hx1 y (by simp)
              exfalso; omega
      · rw [if_neg hP]
        by_cases hlow : low < q
        · rw [if_pos hlow]
          apply ih (q - 1) qs (by omega) hpw
          intro x hx
          obtain ⟨hPx, hlx, hxq⟩ := hmem x hx
          refine ⟨hPx, hlx, ?_⟩
          rcases Nat.eq_or_lt_of_le hxq with heq | hlt
          · exfalso; rw [heq] at hPx; exact hP hPx
          · omega
        · rw [if_neg hlow]
          cases qs with
          | nil => simp
          | cons x rest =>
            obtain ⟨hPx, hlx, hxq⟩ := hmem x (by simp)
            have hx : x = q := by omega
            rw [hx] at hPx; exact absurd hPx hP
    · rw [if_neg hlq]
      cases qs with
      | nil => simp
      | cons x rest => obtain ⟨_, h2, h3⟩ := hmem x (by simp); omega

theorem scanDown_exists_pairwise (P : Nat → Bool) (m low : Nat) :
    ∀ fuel q, ∃ qs : List Nat, List.Pairwise (fun a b => b + m ≤ a) qs ∧
      (∀ x ∈ qs, P x = true ∧ low ≤ x ∧ x ≤ q) ∧
      qs.length = scanDown P m low fuel q := by
  intro fuel
  induction fuel with
  | zero => intro q; exact ⟨[], by simp, by simp, by simp [scanDown]⟩
  | succ fuel ih =>
    intro q
    simp only [scanDown]
    by_cases hlq : low ≤ q
    · rw [if_pos hlq]
      by_cases hP : P q = true
      · rw [if_pos hP]
        by_cases hroom : low + m ≤ q
        · rw [if_pos hroom]
          obtain ⟨qs', hpw', hmem', hlen'⟩ := ih (q - m)
          refine ⟨q :: qs', ?_, ?_, ?_⟩
          · rw [List.pairwise_cons]
            exact ⟨fun x hx => by obtain ⟨_, _, h3⟩ := hmem' x hx; omega, hpw'⟩
          · intro x hx
            rcases List.mem_cons.mp hx with rfl | hx'
            · exact ⟨hP, hlq, le_refl _⟩
            · obtain ⟨h1, h2, h3⟩ := hmem' x hx'; exact ⟨h1, h2, by omega⟩
          · simp only [List.length_cons, hlen']; omega
        · rw [if_neg hroom]
          refine ⟨[q], by simp, ?_, by simp⟩
          intro x hx
          simp only [List.mem_singleton] at hx
          subst hx
          exact ⟨hP, hlq, le_refl _⟩
      · rw [if_neg hP]
        by_cases hlow : low < q
        · rw [if_pos hlow]
          obtain ⟨qs', hpw', hmem', hlen'⟩ := ih (q - 1)
          exact ⟨qs', hpw',
            fun x hx => by obtain ⟨h1, h2, h3⟩ := hmem' x hx; exact ⟨h1, h2, by omega⟩,
            hlen'⟩
        · rw [if_neg hlow]
          exact ⟨[], by simp, by simp, by simp⟩
    · rw [if_neg hlq]
      exact ⟨[], by simp, by simp, by simp⟩

/-- The upward and downward counting scans agree, for every predicate, every
positive step and every window: both compute the maximum number of positions
satisfying the predicate that are pairwise at least `step` apart. -/
theorem scanUp_eq_scanDown (P : Nat → Bool) (m low bound : Nat) (hm : 0 < m)
    (hlb : low < bound) (fuel1 fuel2 : Nat) (h1 : bound ≤ fuel1 + low)
    (h2 : bound ≤ fuel2 + low) :
    scanUp P m bound fuel1 low = scanDown P m low fuel2 (bound - 1) := by
  apply Nat.le_antisymm
  · obtain ⟨qs, hpw, hmem, hlen⟩ := scanUp_exists_pairwise P m bound fuel1 low
    rw [← hlen, ← List.length_reverse qs]
    apply scanDown_pairwise_le P m low hm fuel2 (bound - 1) qs.reverse (by omega)
    · rw [List.pairwise_reverse]
      exact hpw
    · intro x hx
      obtain ⟨hPx, hlx, hxb⟩ := hmem x (List.mem_reverse.mp hx)
      exact ⟨hPx, hlx, by omega⟩
  · obtain ⟨qs, hpw, hmem, hlen⟩ := scanDown_exists_pairwise P m low fuel2 (bound - 1)
    rw [← hlen, ← List.length_reverse qs]
    apply scanUp_pairwise_le P m bound hm fuel1 low qs.reverse (by omega)
    · rw [List.pairwise_reverse]
      exact hpw
    · intro x hx
      obtain ⟨hPx, hlx, hxb⟩ := hmem x (List.mem_reverse.mp hx)
      exact ⟨hPx, hlx, by omega⟩

/-- Modelled from the spec: the body of `mdz_ansi_16_count` is not in src/;
error contract from `mdz_ansi_16.h` lines 482-508 (the same validation chain
as find), counting semantics from spec §4.4: repeated substring search within
the inclusive window, advancing by one byte per match when overlaps are
allowed and by the full match length otherwise, scanning from the left or
from the right as `bFromLeft` says. -/
def mdz_ansi_16_count (lic : Bool) (ps : Option Ansi16) (nLeftPos nRightPos : Nat)
    (pcItems : Option (List Nat)) (nCount : Nat) (bAllowOverlapped bFromLeft : Bool) :
    Nat × MdzError :=
  if lic = false then (SIZE_MAX, .LICENSE)
  else
    match ps with
    | none => (SIZE_MAX, .DATA)
    | some s =>
        match findCheck s nLeftPos nRightPos pcItems nCount with
        | some e => (SIZE_MAX, e)
        | none =>
            let pat := (pcItems.getD []).take nCount
            let step := if bAllowOverlapped then 1 else pat.length
            let bound := nRightPos + 2 - pat.length
            if bFromLeft then
              (scanUp (fun q => matchAt s.data pat q) step bound (nRightPos + 2) nLeftPos,
                .NONE)
            else
              (scanDown (fun q => matchAt s.data pat q) step nLeftPos (nRightPos + 2)
                (bound - 1), .NONE)

example :
    mdz_ansi_16_count true (some ⟨[97, 97, 97, 97, 0], 4, 4⟩) 0 3 (some [97, 97]) 2
      true false = (3, .NONE) := by decide

example :
    mdz_ansi_16_count true (some ⟨[97, 97, 97, 97, 0], 4, 4⟩) 0 3 (some [97, 97]) 2
      false false = (2, .NONE) := by decide

/-- C8: over a valid window and pattern, the count result does not depend on
the `bFromLeft` direction flag (for both overlap settings); with overlaps
allowed a match advances the scan by one byte and otherwise by the full
match length: counting "aa" in "aaaa" over the whole window gives 3 with
`bAllowOverlapped = true` and 2 with `bAllowOverlapped = false`. -/
theorem c8_count_direction_independent (s : Ansi16) (hwf : wf s)
    (hcap16 : s.capacity ≤ 65535) (nLeftPos nRightPos : Nat) (items : List Nat)
    (hlr : nLeftPos ≤ nRightPos) (hr : nRightPos < s.size) (hcnt : 0 < items.length)
    (hfit : items.length ≤ nRightPos + 1 - nLeftPos) (ov : Bool) :
    mdz_ansi_16_count true (some s) nLeftPos nRightPos (some items) items.length ov true
      = mdz_ansi_16_count true (some s) nLeftPos nRightPos (some items) items.length ov false
    ∧ mdz_ansi_16_count true (some ⟨[97, 97, 97, 97, 0], 4, 4⟩) 0 3 (some [97, 97]) 2
        true true = (3, .NONE)
    ∧ mdz_ansi_16_count true (some ⟨[97, 97, 97, 97, 0], 4, 4⟩) 0 3 (some [97, 97]) 2
        false true = (2, .NONE) := by
  refine ⟨?_, by decide, by decide⟩
  obtain ⟨hlen, hsz, hterm⟩ := hwf
  have hchk : findCheck s nLeftPos nRightPos (some items) items.length = none := by
    unfold findCheck
    rw [if_neg (by unfold capTooLarge; omega)]
    rw [if_neg (by omega)]
    rw [if_neg (by simp only [ne_eq, hterm]; simp)]
    rw [if_neg (by simp)]
    rw [if_neg (by omega)]
    rw [if_neg (by omega)]
    rw [if_neg (by omega)]
    rw [if_neg (by omega)]
  have hL : mdz_ansi_16_count true (some s) nLeftPos nRightPos (some items)
      items.length ov true
      = (scanUp (fun q => matchAt s.data items q) (if ov then 1 else items.length)
          (nRightPos + 2 - items.length) (nRightPos + 2) nLeftPos, .NONE) := by
    simp [mdz_ansi_16_count, hchk, List.take_length]
  have hR : mdz_ansi_16_count true (some s) nLeftPos nRightPos (some items)
      items.length ov false
      = (scanDown (fun q => matchAt s.data items q) (if ov then 1 else items.length)
          nLeftPos (nRightPos + 2) (nRightPos + 2 - items.length - 1), .NONE) := by
    simp [mdz_ansi_16_count, hchk, List.take_length]
  rw [hL, hR]
  have heq := scanUp_eq_scanDown (fun q => matchAt s.data items q)
    (if ov then 1 else items.length) nLeftPos (nRightPos + 2 - items.length)
    (by cases ov <;> simp [hcnt]) (by omega) (nRightPos + 2) (nRightPos + 2)
    (by omega) (by omega)
  rw [heq]

theorem c8_count_direction_independent_witness :
    mdz_ansi_16_count true (some ⟨[97, 97, 97, 97, 0], 4, 4⟩) 0 3 (some [97, 97])
        [97, 97].length false true
      = mdz_ansi_16_count true (some ⟨[97, 97, 97, 97, 0], 4, 4⟩) 0 3 (some [97, 97])
        [97, 97].length false false :=
  (c8_count_direction_independent ⟨[97, 97, 97, 97, 0], 4, 4⟩ (by decide) (by decide)
    0 3 [97, 97] (by decide) (by decide) (by decide) (by decide) false).1

theorem seg_self (s : List Nat) (a : Nat) : seg s a a = [] := by
  apply List.drop_eq_nil_of_le
  rw [List.length_take]
  omega

theorem seg_split (s : List Nat) (a b c : Nat) (hab : a ≤ b) (hbc : b ≤ c)
    (hc : c ≤ s.length) : seg s a c = seg s a b ++ seg s b c := by
  have h1 : s.take c = s.take b ++ seg s b c := (take_append_seg s b c hbc).symm
  have h2 : s.take b = s.take a ++ seg s a b := (take_append_seg s a b hab).symm
  show (s.take c).drop a = _
  rw [h1, h2, List.append_assoc, List.drop_left' (by rw [List.length_take]; omega)]

theorem seg_single (s : List Nat) (t : Nat) (ht : t < s.length) :
    seg s t (t + 1) = [s.getD t 0] := by
  show (s.take (t + 1)).drop t = _
  rw [List.take_succ, List.getElem?_eq_getElem ht,
    List.drop_left' (by rw [List.length_take]; omega)]
  rw [List.getD_eq_getElem s 0 ht]
  rfl

theorem seg_cons (s : List Nat) (a b : Nat) (hab : a < b) (hb : b ≤ s.length) :
    seg s a b = s.getD a 0 :: seg s (a + 1) b := by
  rw [seg_split s a (a + 1) b (by omega) (by omega) hb, seg_single s a (by omega),
    List.singleton_append]

theorem seg_take (s : List Nat) (a b t : Nat) (h : a + t ≤ b) :
    (seg s a b).take t = seg s a (a + t) := by
  show ((s.take b).drop a).take t = (s.take (a + t)).drop a
  rw [List.take_drop, List.take_take]
  have hmin : (a + t) ⊓ b = a + t := by omega
  rw [hmin]

theorem seg_drop (s : List Nat) (a b t : Nat) : (seg s a b).drop t = seg s (a + t) b := by
  show ((s.take b).drop a).drop t = (s.take b).drop (a + t)
  rw [List.drop_drop]

/-- Modelled from the spec: the first phase of the "dual" replace (spec §4.3)
for a left-to-right scan — collect the match positions greedily upward,
advancing by the full match length `step` past each match. -/
def collectUp (P : Nat → Bool) (step bound : Nat) : Nat → Nat → List Nat
  | 0, _ => []
  | fuel + 1, pos =>
      if pos < bound then
        if P pos then pos :: collectUp P step bound fuel (pos + step)
        else collectUp P step bound fuel (pos + 1)
      else []

/-- Modelled from the spec: the first phase of the "dual" replace (spec §4.3)
for a right-to-left scan — collect the match positions greedily downward
(the returned list is descending). -/
def collectDown (P : Nat → Bool) (step low : Nat) : Nat → Nat → List Nat
  | 0, _ => []
  | fuel + 1, q =>
      if low ≤ q then
        if P q then
          q :: (if low + step ≤ q then collectDown P step low fuel (q - step) else [])
        else
          (if low < q then collectDown P step low fuel (q - 1) else [])
      else []

/-- Modelled from the spec: the second phase of the "dual" replace — given
the ascending match positions `qs`, emit the bytes `[cur, q)` before each
match, the replacement `after` for the match, and finally the bytes up to
`top`.  (In the C engine this rewrite is applied back-to-front in address
space to avoid self-clobbering; on values the result is this concatenation.) -/
def replConcat (s after : List Nat) (mB top : Nat) : Nat → List Nat → List Nat
  | cur, [] => seg s cur top
  | cur, q :: rest => seg s cur q ++ after ++ replConcat s after mB top (q + mB) rest

/-- The spec's reference replace-all for a left-to-right scan: where the
pattern is a prefix, emit `after` and skip the whole match, otherwise emit
one byte and move on.  `fuel` only bounds the recursion (the list length
always suffices for a non-empty pattern). -/
def replaceAllRefL (pat after : List Nat) : Nat → List Nat → List Nat
  | 0, l => l
  | fuel + 1, l =>
      match l with
      | [] => []
      | x :: xs =>
          if (x :: xs).take pat.length = pat
          then after ++ replaceAllRefL pat after fuel ((x :: xs).drop pat.length)
          else x :: replaceAllRefL pat after fuel xs

/-- The spec's reference replace-all for a right-to-left scan: the mirror
image of the left-to-right reference. -/
def replaceAllRefR (pat after : List Nat) (fuel : Nat) (l : List Nat) : List Nat :=
  (replaceAllRefL pat.reverse after.reverse fuel l.reverse).reverse

/-- Modelled from the spec: `mdz_ansi_replace_type.h` is not in src/; the
enumeration is modelled as a numeric code with `MDZ_ANSI_REPLACE_DUAL` the
single supported value. -/
def MDZ_ANSI_REPLACE_DUAL : Nat := 0

/-- Validation chain of `mdz_ansi_16_replace` after the license and
NULL-handle checks, in the order documented in `mdz_ansi_16.h` lines
510-538.  `bOverlap` is the address-level overlap test between `Data` and
the `pcItemsBefore`/`pcItemsAfter` buffers. -/
def replaceCheck (s : Ansi16) (nLeftPos nRightPos : Nat)
    (pcItemsBefore : Option (List Nat)) (nCountBefore : Nat) (bOverlap : Bool) :
    Option MdzError :=
  if s.capacity = 0 ∨ capTooLarge s then some .CAPACITY
  else if s.capacity < s.size then some .BIG_SIZE
  else if s.size = 0 then some .ZERO_SIZE
  else if s.data.getD s.size 1 ≠ 0 then some .TERMINATOR
  else if pcItemsBefore = none then some .ITEMS
  else if nCountBefore = 0 then some .ZERO_COUNT
  else if s.size ≤ nRightPos then some .BIG_RIGHT
  else if nRightPos < nLeftPos then some .BIG_LEFT
  else if nRightPos + 1 - nLeftPos < nCountBefore then some .BIG_COUNT
  else if bOverlap then some .OVERLAP
  else none

/-- The match positions the replace scan finds inside the inclusive window
`[nLeftPos, nRightPos]`, in ascending order. -/
def replaceMatches (s : Ansi16) (nLeftPos nRightPos : Nat) (pat : List Nat)
    (bFromLeft : Bool) : List Nat :=
  if bFromLeft then
    collectUp (fun q => matchAt s.data pat q) pat.length
      (nRightPos + 2 - pat.length) (nRightPos + 2) nLeftPos
  else
    (collectDown (fun q => matchAt s.data pat q) pat.length nLeftPos
      (nRightPos + 2) (nRightPos + 1 - pat.length)).reverse

/-- The size of the string after replacing every found match. -/
def replaceNewSize (s : Ansi16) (nLeftPos nRightPos : Nat) (pat : List Nat)
    (nCountAfter : Nat) (bFromLeft : Bool) : Nat :=
  s.size - (replaceMatches s nLeftPos nRightPos pat bFromLeft).length * pat.length
    + (replaceMatches s nLeftPos nRightPos pat bFromLeft).length * nCountAfter

/-- Modelled from the spec: the body of `mdz_ansi_16_replace` is not in src/;
error contract from `mdz_ansi_16.h` lines 510-538, and the "dual" rewrite
algorithm (collect the match positions in the scan direction, then rewrite;
final size must not exceed capacity) from spec §4.3.  Per the spec, a
`enReplacementType` other than the supported dual strategy fails with the
explicit unsupported-replacement-kind error rather than silently defaulting;
the spec's §7 ordering places this unsupported-option check after all other
checks.  `bOverlapReplace` is the address-level post-replacement overlap
test. -/
def mdz_ansi_16_replace (lic : Bool) (ps : Option Ansi16) (nLeftPos nRightPos : Nat)
    (pcItemsBefore : Option (List Nat)) (nCountBefore : Nat)
    (pcItemsAfter : Option (List Nat)) (nCountAfter : Nat) (bFromLeft : Bool)
    (enReplacementType : Nat) (bOverlap bOverlapReplace : Bool) :
    MdzError × Option Ansi16 :=
  if lic = false then (.LICENSE, ps)
  else
    match ps with
    | none => (.DATA, none)
    | some s =>
        match replaceCheck s nLeftPos nRightPos pcItemsBefore nCountBefore bOverlap with
        | some e => (e, some s)
        | none =>
            let pat := (pcItemsBefore.getD []).take nCountBefore
            let after := (pcItemsAfter.getD []).take nCountAfter
            let newSize := replaceNewSize s nLeftPos nRightPos pat nCountAfter bFromLeft
            if s.capacity < newSize then (.BIG_REPLACE, some s)
            else if bOverlapReplace then (.OVERLAP_REPLACE, some s)
            else if enReplacementType ≠ MDZ_ANSI_REPLACE_DUAL then (.REPLACE_TYPE, some s)
            else
              let newData := replConcat s.data after pat.length s.size 0
                (replaceMatches s nLeftPos nRightPos pat bFromLeft)
                ++ [0] ++ s.data.drop (newSize + 1)
              (.NONE, some { data := newData, size := newSize, capacity := s.capacity })

example :
    mdz_ansi_16_replace true (some ⟨[97, 98, 99, 97, 98, 0], 5, 5⟩) 0 4
      (some [97, 98]) 2 (some [120]) 1 true MDZ_ANSI_REPLACE_DUAL false false
      = (.NONE, some ⟨[120, 99, 120, 0, 98, 0], 3, 5⟩) := by decide

example :
    mdz_ansi_16_replace true (some ⟨[97, 97, 97, 0], 3, 3⟩) 0 2
      (some [97, 97]) 2 (some [98]) 1 true MDZ_ANSI_REPLACE_DUAL false false
      = (.NONE, some ⟨[98, 97, 0, 0], 2, 3⟩) := by decide

example :
    mdz_ansi_16_replace true (some ⟨[97, 97, 97, 0], 3, 3⟩) 0 2
      (some [97, 97]) 2 (some [98]) 1 false MDZ_ANSI_REPLACE_DUAL false false
      = (.NONE, some ⟨[97, 98, 0, 0], 2, 3⟩) := by decide

example :
    mdz_ansi_16_replace true (some ⟨[97, 98, 0, 0, 0], 2, 4⟩) 0 1
      (some [97, 98]) 2 (some [120, 121, 122]) 3 true MDZ_ANSI_REPLACE_DUAL false false
      = (.NONE, some ⟨[120, 121, 122, 0, 0], 3, 4⟩) := by decide

example :
    mdz_ansi_16_replace true (some ⟨[97, 98, 0], 2, 2⟩) 0 1
      (some [97, 98]) 2 (some [120, 121, 122]) 3 true MDZ_ANSI_REPLACE_DUAL false false
      = (.BIG_REPLACE, some ⟨[97, 98, 0], 2, 2⟩) := by decide

/-- C9: a `replacementKind` other than `MDZ_ANSI_REPLACE_DUAL` never causes a
rewrite and never succeeds — the state comes back unchanged and the error is
non-`NONE` for every such call; and when every other validation passes
(including capacity sufficiency and the overlap tests) the call fails with
the explicit unsupported-replacement-kind error `REPLACE_TYPE` rather than
silently defaulting to the dual strategy. -/
theorem replaceCheck_ne_NONE (s : Ansi16) (nLeftPos nRightPos : Nat)
    (pb : Option (List Nat)) (cb : Nat) (ov : Bool) (e : MdzError)
    (h : replaceCheck s nLeftPos nRightPos pb cb ov = some e) : e ≠ .NONE := by
  unfold replaceCheck at h
  repeat' split at h
  all_goals first
    | (injection h with h2; subst h2; simp)
    | simp at h

theorem c9_replace_kind_unsupported (lic : Bool) (ps : Option Ansi16)
    (nLeftPos nRightPos : Nat) (pBefore : Option (List Nat)) (cntB : Nat)
    (pAfter : Option (List Nat)) (cntA : Nat) (bFromLeft : Bool) (kind : Nat)
    (bOverlap bOverlapReplace : Bool) (hkind : kind ≠ MDZ_ANSI_REPLACE_DUAL) :
    ((mdz_ansi_16_replace lic ps nLeftPos nRightPos pBefore cntB pAfter cntA bFromLeft
        kind bOverlap bOverlapReplace).1 ≠ .NONE ∧
     (mdz_ansi_16_replace lic ps nLeftPos nRightPos pBefore cntB pAfter cntA bFromLeft
        kind bOverlap bOverlapReplace).2 = ps) ∧
    (∀ s itemsB, ps = some s → wf s → s.capacity ≤ 65535 → s.capacity ≠ 0 →
      s.size ≠ 0 → pBefore = some itemsB → cntB ≠ 0 → nRightPos < s.size →
      nLeftPos ≤ nRightPos → cntB ≤ nRightPos + 1 - nLeftPos → bOverlap = false →
      bOverlapReplace = false → lic = true →
      replaceNewSize s nLeftPos nRightPos (itemsB.take cntB) cntA bFromLeft
        ≤ s.capacity →
      mdz_ansi_16_replace lic ps nLeftPos nRightPos pBefore cntB pAfter cntA bFromLeft
        kind bOverlap bOverlapReplace = (.REPLACE_TYPE, some s)) := by
  constructor
  · unfold mdz_ansi_16_replace
    by_cases hlic : lic = false
    · rw [if_pos hlic]
      exact ⟨by simp, rfl⟩
    · rw [if_neg hlic]
      cases ps with
      | none => exact ⟨by simp, rfl⟩
      | some s =>
        dsimp only
        cases hchk : replaceCheck s nLeftPos nRightPos pBefore cntB bOverlap with
        | some e =>
          have he : e ≠ .NONE :=
            replaceCheck_ne_NONE s nLeftPos nRightPos pBefore cntB bOverlap e hchk
          exact ⟨by simpa using he, rfl⟩
        | none =>
          dsimp only
          rw [if_pos hkind]
          constructor
          · split
            · simp
            · split <;> simp
          · split
            · rfl
            · split <;> rfl
  · intro s itemsB hps hwf hcap16 hcap0 hsz0 hpb hcnt hrr hlr hfit hov hovr hlic hsizefit
    subst hps hpb hov hovr hlic
    obtain ⟨hlen, hsz, hterm⟩ := hwf
    have hchk : replaceCheck s nLeftPos nRightPos (some itemsB) cntB false = none := by
      unfold replaceCheck
      rw [if_neg (by unfold capTooLarge; omega)]
      rw [if_neg (by omega)]
      rw [if_neg hsz0]
      rw [if_neg (by simp only [ne_eq, hterm]; simp)]
      rw [if_neg (by simp)]
      rw [if_neg hcnt]
      rw [if_neg (by omega)]
      rw [if_neg (by omega)]
      rw [if_neg (by omega)]
      simp
    unfold mdz_ansi_16_replace
    rw [if_neg (by simp)]
    dsimp only
    rw [hchk]
    dsimp only
    simp only [Option.getD_some]
    rw [if_neg (by simpa using hsizefit)]
    rw [if_neg (by simp)]
    rw [if_pos hkind]

theorem c9_replace_kind_unsupported_witness :
    mdz_ansi_16_replace true (some ⟨[97, 0, 0], 1, 2⟩) 0 0 (some [97]) 1 (some [98]) 1
      true 5 false false = (.REPLACE_TYPE, some ⟨[97, 0, 0], 1, 2⟩) :=
  (c9_replace_kind_unsupported true (some ⟨[97, 0, 0], 1, 2⟩) 0 0 (some [97]) 1
    (some [98]) 1 true 5 false false (by decide)).2 ⟨[97, 0, 0], 1, 2⟩ [97] rfl
    (by decide) (by decide) (by decide) (by decide) rfl (by decide) (by decide)
    (by decide) (by decide) rfl rfl rfl (by decide)

theorem seg_zero (s : List Nat) (b : Nat) : seg s 0 b = s.take b := by
  simp [seg]

theorem collectUp_spec (P : Nat → Bool) (m bound : Nat) :
    ∀ fuel pos, List.Pairwise (fun a b => a + m ≤ b) (collectUp P m bound fuel pos) ∧
      ∀ q ∈ collectUp P m bound fuel pos, P q = true ∧ pos ≤ q ∧ q < bound := by
  intro fuel
  induction fuel with
  | zero =>
    intro pos
    constructor
    · simp [collectUp]
    · intro q hq; simp [collectUp] at hq
  | succ fuel ih =>
    intro pos
    simp only [collectUp]
    by_cases hin : pos < bound
    · rw [if_pos hin]
      by_cases hP : P pos = true
      · rw [if_pos hP]
        obtain ⟨hpw, hmem⟩ := ih (pos + m)
        constructor
        · rw [List.pairwise_cons]
          exact ⟨fun q hq => by obtain ⟨_, h2, _⟩ := hmem q hq; omega, hpw⟩
        · intro q hq
          rcases List.mem_cons.mp hq with rfl | hq'
          · exact ⟨hP, le_refl _, hin⟩
          · obtain ⟨h1, h2, h3⟩ := hmem q hq'
            exact ⟨h1, by omega, h3⟩
      · rw [if_neg hP]
        obtain ⟨hpw, hmem⟩ := ih (pos + 1)
        exact ⟨hpw,
          fun q hq => by obtain ⟨h1, h2, h3⟩ := hmem q hq; exact ⟨h1, by omega, h3⟩⟩
    · rw [if_neg hin]
      constructor
      · simp
      · intro q hq; simp at hq

theorem collectDown_spec (P : Nat → Bool) (m low : Nat) :
    ∀ fuel q, List.Pairwise (fun a b => b + m ≤ a) (collectDown P m low fuel q) ∧
      ∀ x ∈ collectDown P m low fuel q, P x = true ∧ low ≤ x ∧ x ≤ q := by
  intro fuel
  induction fuel with
  | zero =>
    intro q
    constructor
    · simp [collectDown]
    · intro x hx; simp [collectDown] at hx
  | succ fuel ih =>
    intro q
    simp only [collectDown]
    by_cases hlq : low ≤ q
    · rw [if_pos hlq]
      by_cases hP : P q = true
      · rw [if_pos hP]
        by_cases hroom : low + m ≤ q
        · rw [if_pos hroom]
          obtain ⟨hpw, hmem⟩ := ih (q - m)
          constructor
          · rw [List.pairwise_cons]
            exact ⟨fun x hx => by obtain ⟨_, _, h3⟩ := hmem x hx; omega, hpw⟩
          · intro x hx
            rcases List.mem_cons.mp hx with rfl | hx'
            · exact ⟨hP, hlq, le_refl _⟩
            · obtain ⟨h1, h2, h3⟩ := hmem x hx'
              exact ⟨h1, h2, by omega⟩
        · rw [if_neg hroom]
          constructor
          · simp
          · intro x hx
            simp only [List.mem_singleton] at hx
            subst hx
            exact ⟨hP, hlq, le_refl _⟩
      · rw [if_neg hP]
        by_cases hlow : low < q
        · rw [if_pos hlow]
          obtain ⟨hpw, hmem⟩ := ih (q - 1)
          exact ⟨hpw,
            fun x hx => by obtain ⟨h1, h2, h3⟩ := hmem x hx; exact ⟨h1, h2, by omega⟩⟩
        · rw [if_neg hlow]
          constructor
          · simp
          · intro x hx; simp at hx
    · rw [if_neg hlq]
      constructor
      · simp
      · intro x hx; simp at hx

theorem refL_short (pat after : List Nat) :
    ∀ fuel l, l.length < pat.length → replaceAllRefL pat after fuel l = l := by
  intro fuel
  induction fuel with
  | zero => intro l _; rfl
  | succ fuel ih =>
    intro l hl
    cases l with
    | nil => rfl
    | cons x xs =>
      have hxl : xs.length + 1 < pat.length := by simpa using hl
      have hne : ¬ ((x :: xs).take pat.length = pat) := by
        intro hcontra
        have hcl := congrArg List.length hcontra
        simp [List.length_take] at hcl
        omega
      simp only [replaceAllRefL]
      rw [if_neg hne, ih xs (by omega)]

theorem pairwise_gap_sum (m size : Nat) :
    ∀ (qs : List Nat) (lo : Nat), List.Pairwise (fun a b => a + m ≤ b) qs →
      (∀ q ∈ qs, lo ≤ q ∧ q + m ≤ size) → lo + qs.length * m ≤ size ∨ qs = [] := by
  intro qs
  induction qs with
  | nil => intro lo _ _; right; rfl
  | cons q rest ih =>
    intro lo hpw hmem
    left
    rw [List.pairwise_cons] at hpw
    obtain ⟨h1, h2⟩ := hpw
    obtain ⟨hlo, hqm⟩ := hmem q (by simp)
    rcases ih (q + m) h2 (fun x hx => ⟨h1 x hx, (hmem x (by simp [hx])).2⟩) with h | h
    · simp only [List.length_cons]; rw [Nat.succ_mul]; omega
    · subst h; simp only [List.length_cons, List.length_nil]; rw [Nat.succ_mul]; omega

theorem replConcat_length (d after : List Nat) (m size : Nat) (hsz : size ≤ d.length) :
    ∀ (qs : List Nat) (cur : Nat), cur ≤ size →
      (∀ q ∈ qs, cur ≤ q ∧ q + m ≤ size) →
      List.Pairwise (fun a b => a + m ≤ b) qs →
      (replConcat d after m size cur qs).length + qs.length * m
        = (size - cur) + qs.length * after.length := by
  intro qs
  induction qs with
  | nil =>
    intro cur hcur _ _
    simp only [replConcat, List.length_nil, Nat.zero_mul, Nat.add_zero]
    rw [seg_len d cur size hsz hcur]
  | cons q rest ih =>
    intro cur hcur hmem hpw
    rw [List.pairwise_cons] at hpw
    obtain ⟨h1, h2⟩ := hpw
    obtain ⟨hcq, hqm⟩ := hmem q (by simp)
    simp only [replConcat, List.length_append, List.length_cons]
    rw [seg_len d cur q (by omega) hcq]
    have hrec := ih (q + m) (by omega)
      (fun x hx => ⟨h1 x hx, (hmem x (by simp [hx])).2⟩) h2
    rw [Nat.succ_mul, Nat.succ_mul]
    omega

theorem replConcat_cons_cur (d after : List Nat) (m size : Nat) (hsz : size ≤ d.length)
    (qs : List Nat) (cur : Nat) (hcur : cur < size)
    (hmem : ∀ q ∈ qs, cur < q ∧ q ≤ d.length) :
    replConcat d after m size cur qs
      = d.getD cur 0 :: replConcat d after m size (cur + 1) qs := by
  cases qs with
  | nil =>
    simp only [replConcat]
    exact seg_cons d cur size hcur hsz
  | cons q rest =>
    simp only [replConcat]
    obtain ⟨h1, h2⟩ := hmem q (by simp)
    rw [seg_cons d cur q h1 h2]
    rfl

/-- Lockstep equivalence of the dual-rewrite model and the reference
replace-all for a left-to-right scan: collecting the greedy match positions
and concatenating the rewritten pieces produces exactly the reference
left-to-right replace-all of the window, followed by the untouched tail. -/
theorem replConcat_collectUp_eq_refL (d pat after : List Nat) (size e : Nat)
    (hm : 0 < pat.length) (he : e ≤ size) (hsz : size ≤ d.length) :
    ∀ fuel pos, pos ≤ e →
      replConcat d after pat.length size pos
        (collectUp (fun q => matchAt d pat q) pat.length (e + 1 - pat.length) fuel pos)
        = replaceAllRefL pat after fuel (seg d pos e) ++ seg d e size := by
  intro fuel
  induction fuel with
  | zero =>
    intro pos hpos
    simp only [collectUp, replConcat, replaceAllRefL]
    exact seg_split d pos e size hpos he hsz
  | succ fuel ih =>
    intro pos hpos
    simp only [collectUp]
    by_cases hin : pos < e + 1 - pat.length
    · rw [if_pos hin]
      have hpm : pos + pat.length ≤ e := by omega
      have hw : seg d pos e = d.getD pos 0 :: seg d (pos + 1) e :=
        seg_cons d pos e (by omega) (by omega)
      by_cases hP : matchAt d pat pos = true
      · rw [if_pos hP]
        simp only [replConcat]
        rw [seg_self, hw]
        simp only [replaceAllRefL]
        have hcond : (d.getD pos 0 :: seg d (pos + 1) e).take pat.length = pat := by
          rw [← hw, seg_take d pos e pat.length hpm]
          simpa [matchAt] using hP
        rw [if_pos hcond]
        have hdrop : (d.getD pos 0 :: seg d (pos + 1) e).drop pat.length
            = seg d (pos + pat.length) e := by
          rw [← hw, seg_drop]
        rw [hdrop, ih (pos + pat.length) (by omega)]
        simp [List.append_assoc]
      · rw [if_neg hP]
        have hmem' := (collectUp_spec (fun q => matchAt d pat q) pat.length
          (e + 1 - pat.length) fuel (pos + 1)).2
        rw [replConcat_cons_cur d after pat.length size hsz _ pos (by omega)
          (fun q hq => ⟨by have := (hmem' q hq).2.1; omega,
            by have := (hmem' q hq).2.2; omega⟩)]
        rw [ih (pos + 1) (by omega), hw]
        simp only [replaceAllRefL]
        have hcond : ¬ ((d.getD pos 0 :: seg d (pos + 1) e).take pat.length = pat) := by
          rw [← hw, seg_take d pos e pat.length hpm]
          intro hc
          apply hP
          simp [matchAt, hc]
        rw [if_neg hcond]
        rfl
    · rw [if_neg hin]
      simp only [replConcat]
      have hshort : (seg d pos e).length < pat.length := by
        rw [seg_len d pos e (by omega) hpos]; omega
      rw [refL_short pat after (fuel + 1) (seg d pos e) hshort]
      exact seg_split d pos e size hpos he hsz

theorem replConcat_snoc (d after : List Nat) (m top : Nat) :
    ∀ (xs : List Nat) (cur q : Nat),
      replConcat d after m top cur (xs ++ [q])
        = replConcat d after m q cur xs ++ after ++ seg d (q + m) top := by
  intro xs
  induction xs with
  | nil =>
    intro cur q
    simp only [List.nil_append, replConcat]
  | cons x xs ih =>
    intro cur q
    have hc : (x :: xs) ++ [q] = x :: (xs ++ [q]) := rfl
    rw [hc]
    simp only [replConcat]
    rw [ih (x + m) q]
    simp [List.append_assoc]

theorem replConcat_top_split (d after : List Nat) (m t1 t2 : Nat)
    (ht : t1 ≤ t2) (ht2 : t2 ≤ d.length) :
    ∀ (qs : List Nat) (cur : Nat), cur ≤ t1 → (∀ q ∈ qs, cur ≤ q ∧ q + m ≤ t1) →
      List.Pairwise (fun a b => a + m ≤ b) qs →
      replConcat d after m t2 cur qs = replConcat d after m t1 cur qs ++ seg d t1 t2 := by
  intro qs
  induction qs with
  | nil =>
    intro cur hc _ _
    simp only [replConcat]
    exact seg_split d cur t1 t2 hc ht ht2
  | cons q rest ih =>
    intro cur hc hmem hpw
    rw [List.pairwise_cons] at hpw
    obtain ⟨h1, h2⟩ := hpw
    obtain ⟨hcq, hqm⟩ := hmem q (by simp)
    simp only [replConcat]
    rw [ih (q + m) (by omega) (fun x hx => ⟨h1 x hx, (hmem x (by simp [hx])).2⟩) h2]
    simp [List.append_assoc]

theorem replConcat_cur_split (d after : List Nat) (m top c1 c2 : Nat)
    (hc : c1 ≤ c2) (htop : c2 ≤ top) (hlen : top ≤ d.length) :
    ∀ (qs : List Nat), (∀ q ∈ qs, c2 ≤ q ∧ q ≤ d.length) →
      replConcat d after m top c1 qs = seg d c1 c2 ++ replConcat d after m top c2 qs := by
  intro qs
  cases qs with
  | nil =>
    intro _
    simp only [replConcat]
    exact seg_split d c1 c2 top hc htop hlen
  | cons q rest =>
    intro hmem
    obtain ⟨h1, h2⟩ := hmem q (by simp)
    simp only [replConcat]
    rw [seg_split d c1 c2 q hc h1 h2]
    simp [List.append_assoc]

/-- Lockstep equivalence of the dual-rewrite model and the reference
replace-all for a right-to-left scan: collecting the greedy match positions
downward and concatenating the rewritten pieces produces exactly the mirror
of the left-to-right reference applied to the reversed window. -/
theorem replConcat_collectDown_eq_refR (d pat after : List Nat) (low : Nat)
    (hm : 0 < pat.length) :
    ∀ fuel q, low ≤ q → q + pat.length ≤ d.length →
      replConcat d after pat.length (q + pat.length) low
        ((collectDown (fun x => matchAt d pat x) pat.length low fuel q).reverse)
        = (replaceAllRefL pat.reverse after.reverse fuel
            ((seg d low (q + pat.length)).reverse)).reverse := by
  intro fuel
  induction fuel with
  | zero =>
    intro q hlq hql
    simp only [collectDown, List.reverse_nil, replConcat, replaceAllRefL,
      List.reverse_reverse]
  | succ fuel ih =>
    intro q hlq hql
    simp only [collectDown]
    rw [if_pos hlq]
    by_cases hP : matchAt d pat q = true
    · rw [if_pos hP]
      have hWsplit : seg d low (q + pat.length)
          = seg d low q ++ seg d q (q + pat.length) :=
        seg_split d low q (q + pat.length) hlq (by omega) hql
      have hW : (seg d low (q + pat.length)).reverse
          = (seg d q (q + pat.length)).reverse ++ (seg d low q).reverse := by
        rw [hWsplit, List.reverse_append]
      have hlen1 : ((seg d q (q + pat.length)).reverse).length = pat.length := by
        rw [List.length_reverse, seg_len d q (q + pat.length) hql (by omega)]
        omega
      have hmatch : seg d q (q + pat.length) = pat := by simpa [matchAt] using hP
      have htake : ((seg d low (q + pat.length)).reverse).take pat.reverse.length
          = pat.reverse := by
        rw [List.length_reverse, hW, List.take_left' hlen1, hmatch]
      have hdrop : ((seg d low (q + pat.length)).reverse).drop pat.reverse.length
          = (seg d low q).reverse := by
        rw [List.length_reverse, hW, List.drop_left' hlen1]
      obtain ⟨x, xs, hWx⟩ : ∃ x xs, (seg d low (q + pat.length)).reverse = x :: xs := by
        cases hcase : (seg d low (q + pat.length)).reverse with
        | nil =>
          have hlc := congrArg List.length hcase
          rw [List.length_reverse, seg_len d low (q + pat.length) hql (by omega)] at hlc
          simp at hlc
          omega
        | cons a as => exact ⟨a, as, rfl⟩
      by_cases hroom : low + pat.length ≤ q
      · rw [if_pos hroom, hWx]
        simp only [replaceAllRefL]
        rw [if_pos (by rw [← hWx]; exact htake)]
        rw [show (x :: xs).drop pat.reverse.length = (seg d low q).reverse from by
          rw [← hWx]; exact hdrop]
        rw [List.reverse_append, List.reverse_reverse]
        rw [show (q :: collectDown (fun x => matchAt d pat x) pat.length low fuel
            (q - pat.length)).reverse
          = (collectDown (fun x => matchAt d pat x) pat.length low fuel
              (q - pat.length)).reverse ++ [q] from by simp]
        rw [replConcat_snoc, seg_self]
        have hih := ih (q - pat.length) (by omega) (by omega)
        rw [show q - pat.length + pat.length = q from by omega] at hih
        rw [hih]
        simp [List.append_assoc]
      · rw [if_neg hroom, hWx]
        simp only [replaceAllRefL]
        rw [if_pos (by rw [← hWx]; exact htake)]
        rw [show (x :: xs).drop pat.reverse.length = (seg d low q).reverse from by
          rw [← hWx]; exact hdrop]
        rw [List.reverse_append, List.reverse_reverse]
        simp only [List.reverse_cons, List.reverse_nil, List.nil_append]
        simp only [replConcat]
        rw [seg_self]
        rw [refL_short pat.reverse after.reverse fuel ((seg d low q).reverse)
          (by rw [List.length_reverse, List.length_reverse,
                seg_len d low q (by omega) hlq]; omega)]
        rw [List.reverse_reverse]
        simp [List.append_assoc]
    · rw [if_neg hP]
      have hWsplit : seg d low (q + pat.length)
          = seg d low (q + pat.length - 1)
            ++ seg d (q + pat.length - 1) (q + pat.length) :=
        seg_split d low (q + pat.length - 1) (q + pat.length) (by omega) (by omega) hql
      have hsingle : seg d (q + pat.length - 1) (q + pat.length)
          = [d.getD (q + pat.length - 1) 0] := by
        have h := seg_single d (q + pat.length - 1) (by omega)
        rw [show q + pat.length - 1 + 1 = q + pat.length from by omega] at h
        exact h
      have hW : (seg d low (q + pat.length)).reverse
          = d.getD (q + pat.length - 1) 0
            :: (seg d low (q + pat.length - 1)).reverse := by
        rw [hWsplit, List.reverse_append, hsingle]
        rfl
      have hcond : ¬ ((d.getD (q + pat.length - 1) 0
          :: (seg d low (q + pat.length - 1)).reverse).take pat.reverse.length
            = pat.reverse) := by
        rw [← hW, List.length_reverse]
        intro hc
        apply hP
        have hWs2 : (seg d low (q + pat.length)).reverse
            = (seg d q (q + pat.length)).reverse ++ (seg d low q).reverse := by
          rw [seg_split d low q (q + pat.length) hlq (by omega) hql,
            List.reverse_append]
        rw [hWs2, List.take_left' (by rw [List.length_reverse,
          seg_len d q (q + pat.length) hql (by omega)]; omega)] at hc
        have hc2 := congrArg List.reverse hc
        simp only [List.reverse_reverse] at hc2
        simp [matchAt, hc2]
      by_cases hlow : low < q
      · rw [if_pos hlow, hW]
        simp only [replaceAllRefL]
        rw [if_neg hcond]
        have hspec := collectDown_spec (fun x => matchAt d pat x) pat.length low fuel
          (q - 1)
        rw [replConcat_top_split d after pat.length (q + pat.length - 1)
          (q + pat.length) (by omega) hql
          ((collectDown (fun x => matchAt d pat x) pat.length low fuel (q - 1)).reverse)
          low (by omega)
          (fun x hx => by
            obtain ⟨_, h2, h3⟩ := hspec.2 x (List.mem_reverse.mp hx)
            exact ⟨h2, by omega⟩)
          (by rw [List.pairwise_reverse]; exact hspec.1)]
        have hih := ih (q - 1) (by omega) (by omega)
        rw [show q - 1 + pat.length = q + pat.length - 1 from by omega] at hih
        rw [hih, hsingle, List.reverse_cons]
      · rw [if_neg hlow, hW]
        simp only [replaceAllRefL]
        rw [if_neg hcond]
        simp only [List.reverse_nil, replConcat]
        rw [refL_short pat.reverse after.reverse fuel
          ((seg d low (q + pat.length - 1)).reverse)
          (by rw [List.length_reverse, List.length_reverse,
                seg_len d low (q + pat.length - 1) (by omega) (by omega)]; omega)]
        rw [List.reverse_cons, List.reverse_reverse]
        rw [hWsplit, hsingle]

/-- C5: for a growing replace (`countAfter > countBefore`) over a valid
window, if the final size after replacing all matches is exactly the
capacity, replace succeeds and the resulting size and content are byte-exact
— equal to the reference replace-all of the window in the scan direction;
if the capacity is one byte smaller than that final size, replace fails with
`MDZ_ERROR_BIG_REPLACE` and the string is unchanged. -/
theorem c5_replace_growing (s : Ansi16) (hwf : wf s) (hcap16 : s.capacity ≤ 65535)
    (nLeftPos nRightPos : Nat) (itemsB itemsA : List Nat) (bFromLeft : Bool)
    (hlr : nLeftPos ≤ nRightPos) (hr : nRightPos < s.size)
    (hcntb : 0 < itemsB.length) (hfitw : itemsB.length ≤ nRightPos + 1 - nLeftPos)
    (_hgrow : itemsB.length < itemsA.length) :
    (replaceNewSize s nLeftPos nRightPos itemsB itemsA.length bFromLeft = s.capacity →
      ∃ s', mdz_ansi_16_replace true (some s) nLeftPos nRightPos (some itemsB)
            itemsB.length (some itemsA) itemsA.length bFromLeft MDZ_ANSI_REPLACE_DUAL
            false false = (.NONE, some s')
        ∧ s'.capacity = s.capacity
        ∧ s'.size = (s.data.take nLeftPos
            ++ (if bFromLeft then
                  replaceAllRefL itemsB itemsA (nRightPos + 2)
                    (seg s.data nLeftPos (nRightPos + 1))
                else
                  replaceAllRefR itemsB itemsA (nRightPos + 2)
                    (seg s.data nLeftPos (nRightPos + 1)))
            ++ seg s.data (nRightPos + 1) s.size).length
        ∧ s'.data.take s'.size = s.data.take nLeftPos
            ++ (if bFromLeft then
                  replaceAllRefL itemsB itemsA (nRightPos + 2)
                    (seg s.data nLeftPos (nRightPos + 1))
                else
                  replaceAllRefR itemsB itemsA (nRightPos + 2)
                    (seg s.data nLeftPos (nRightPos + 1)))
            ++ seg s.data (nRightPos + 1) s.size) ∧
    (replaceNewSize s nLeftPos nRightPos itemsB itemsA.length bFromLeft
        = s.capacity + 1 →
      mdz_ansi_16_replace true (some s) nLeftPos nRightPos (some itemsB) itemsB.length
        (some itemsA) itemsA.length bFromLeft MDZ_ANSI_REPLACE_DUAL false false
        = (.BIG_REPLACE, some s)) := by
  obtain ⟨hlen, hsz, hterm⟩ := hwf
  have hchk : replaceCheck s nLeftPos nRightPos (some itemsB) itemsB.length false
      = none := by
    unfold replaceCheck
    rw [if_neg (by unfold capTooLarge; omega)]
    rw [if_neg (by omega)]
    rw [if_neg (by omega)]
    rw [if_neg (by simp only [ne_eq, hterm]; simp)]
    rw [if_neg (by simp)]
    rw [if_neg (by omega)]
    rw [if_neg (by omega)]
    rw [if_neg (by omega)]
    rw [if_neg (by omega)]
    simp
  have hqsfacts : List.Pairwise (fun a b => a + itemsB.length ≤ b)
        (replaceMatches s nLeftPos nRightPos itemsB bFromLeft) ∧
      ∀ q ∈ replaceMatches s nLeftPos nRightPos itemsB bFromLeft,
        nLeftPos ≤ q ∧ q + itemsB.length ≤ nRightPos + 1 := by
    unfold replaceMatches
    cases bFromLeft with
    | true =>
      rw [if_pos rfl]
      obtain ⟨hpw, hmem⟩ := collectUp_spec (fun q => matchAt s.data itemsB q)
        itemsB.length (nRightPos + 2 - itemsB.length) (nRightPos + 2) nLeftPos
      exact ⟨hpw, fun q hq => by obtain ⟨_, h2, h3⟩ := hmem q hq; exact ⟨h2, by omega⟩⟩
    | false =>
      rw [if_neg (by simp)]
      obtain ⟨hpw, hmem⟩ := collectDown_spec (fun x => matchAt s.data itemsB x)
        itemsB.length nLeftPos (nRightPos + 2) (nRightPos + 1 - itemsB.length)
      constructor
      · rw [List.pairwise_reverse]; exact hpw
      · intro q hq
        obtain ⟨_, h2, h3⟩ := hmem q (List.mem_reverse.mp hq)
        exact ⟨h2, by omega⟩
  obtain ⟨hqpw, hqmem⟩ := hqsfacts
  have hmle : (replaceMatches s nLeftPos nRightPos itemsB bFromLeft).length
      * itemsB.length ≤ s.size := by
    rcases pairwise_gap_sum itemsB.length s.size
      (replaceMatches s nLeftPos nRightPos itemsB bFromLeft) 0 hqpw
      (fun q hq => ⟨Nat.zero_le q, by have := (hqmem q hq).2; omega⟩) with h | h
    · omega
    · rw [h]; simp
  have hclen : (replConcat s.data itemsA itemsB.length s.size 0
        (replaceMatches s nLeftPos nRightPos itemsB bFromLeft)).length
      + (replaceMatches s nLeftPos nRightPos itemsB bFromLeft).length * itemsB.length
      = s.size
        + (replaceMatches s nLeftPos nRightPos itemsB bFromLeft).length
          * itemsA.length := by
    have h := replConcat_length s.data itemsA itemsB.length s.size (by omega)
      (replaceMatches s nLeftPos nRightPos itemsB bFromLeft) 0 (by omega)
      (fun q hq => ⟨Nat.zero_le q, by have := (hqmem q hq).2; omega⟩) hqpw
    simpa using h
  have hclen2 : (replConcat s.data itemsA itemsB.length s.size 0
        (replaceMatches s nLeftPos nRightPos itemsB bFromLeft)).length
      = replaceNewSize s nLeftPos nRightPos itemsB itemsA.length bFromLeft := by
    unfold replaceNewSize
    omega
  have hcontent : replConcat s.data itemsA itemsB.length s.size 0
        (replaceMatches s nLeftPos nRightPos itemsB bFromLeft)
      = s.data.take nLeftPos
        ++ (if bFromLeft then replaceAllRefL itemsB itemsA (nRightPos + 2)
              (seg s.data nLeftPos (nRightPos + 1))
            else replaceAllRefR itemsB itemsA (nRightPos + 2)
              (seg s.data nLeftPos (nRightPos + 1)))
        ++ seg s.data (nRightPos + 1) s.size := by
    rw [replConcat_cur_split s.data itemsA itemsB.length s.size 0 nLeftPos
      (Nat.zero_le _) (by omega) (by omega)
      (replaceMatches s nLeftPos nRightPos itemsB bFromLeft)
      (fun q hq => ⟨(hqmem q hq).1, by have := (hqmem q hq).2; omega⟩)]
    rw [seg_zero, List.append_assoc]
    congr 1
    cases bFromLeft with
    | true =>
      rw [if_pos rfl]
      have hL := replConcat_collectUp_eq_refL s.data itemsB itemsA s.size
        (nRightPos + 1) hcntb (by omega) (by omega) (nRightPos + 2) nLeftPos (by omega)
      rw [show nRightPos + 1 + 1 - itemsB.length = nRightPos + 2 - itemsB.length
        from by omega] at hL
      unfold replaceMatches
      rw [if_pos rfl]
      exact hL
    | false =>
      rw [if_neg (by simp)]
      have hR := replConcat_collectDown_eq_refR s.data itemsB itemsA nLeftPos hcntb
        (nRightPos + 2) (nRightPos + 1 - itemsB.length) (by omega) (by omega)
      rw [show nRightPos + 1 - itemsB.length + itemsB.length = nRightPos + 1
        from by omega] at hR
      unfold replaceMatches
      rw [if_neg (by simp)]
      obtain ⟨hpw2, hmem2⟩ := collectDown_spec (fun x => matchAt s.data itemsB x)
        itemsB.length nLeftPos (nRightPos + 2) (nRightPos + 1 - itemsB.length)
      rw [replConcat_top_split s.data itemsA itemsB.length (nRightPos + 1) s.size
        (by omega) (by omega)
        ((collectDown (fun x => matchAt s.data itemsB x) itemsB.length nLeftPos
          (nRightPos + 2) (nRightPos + 1 - itemsB.length)).reverse)
        nLeftPos (by omega)
        (fun x hx => by
          obtain ⟨_, h2, h3⟩ := hmem2 x (List.mem_reverse.mp hx)
          exact ⟨h2, by omega⟩)
        (by rw [List.pairwise_reverse]; exact hpw2)]
      rw [hR]
      unfold replaceAllRefR
      rfl
  constructor
  · intro hexact
    unfold mdz_ansi_16_replace
    rw [if_neg (by simp)]
    dsimp only
    rw [hchk]
    dsimp only
    simp only [Option.getD_some, List.take_length]
    rw [if_neg (by rw [hexact]; omega)]
    rw [if_neg (by simp)]
    rw [if_neg (by simp [MDZ_ANSI_REPLACE_DUAL])]
    refine ⟨_, rfl, rfl, ?_, ?_⟩
    · show replaceNewSize s nLeftPos nRightPos itemsB itemsA.length bFromLeft = _
      rw [← hcontent]
      exact hclen2.symm
    · show (replConcat s.data itemsA itemsB.length s.size 0
          (replaceMatches s nLeftPos nRightPos itemsB bFromLeft)
          ++ [0] ++ s.data.drop
            (replaceNewSize s nLeftPos nRightPos itemsB itemsA.length bFromLeft + 1)).take
          (replaceNewSize s nLeftPos nRightPos itemsB itemsA.length bFromLeft) = _
      rw [List.append_assoc, List.take_left' hclen2]
      exact hcontent
  · intro hone
    unfold mdz_ansi_16_replace
    rw [if_neg (by simp)]
    dsimp only
    rw [hchk]
    dsimp only
    simp only [Option.getD_some, List.take_length]
    rw [if_pos (by rw [hone]; omega)]

theorem c5_replace_growing_witness :
    ∃ s', mdz_ansi_16_replace true (some ⟨[97, 98, 0, 0], 2, 3⟩) 0 1 (some [97, 98]) 2
        (some [120, 121, 122]) 3 true MDZ_ANSI_REPLACE_DUAL false false
        = (.NONE, some s')
      ∧ s'.capacity = 3
      ∧ s'.size = ([97, 98, 0, 0].take 0
          ++ (if true then
                replaceAllRefL [97, 98] [120, 121, 122] 3 (seg [97, 98, 0, 0] 0 2)
              else
                replaceAllRefR [97, 98] [120, 121, 122] 3 (seg [97, 98, 0, 0] 0 2))
          ++ seg [97, 98, 0, 0] 2 2).length
      ∧ s'.data.take s'.size = [97, 98, 0, 0].take 0
          ++ (if true then
                replaceAllRefL [97, 98] [120, 121, 122] 3 (seg [97, 98, 0, 0] 0 2)
              else
                replaceAllRefR [97, 98] [120, 121, 122] 3 (seg [97, 98, 0, 0] 0 2))
          ++ seg [97, 98, 0, 0] 2 2 :=
  (c5_replace_growing ⟨[97, 98, 0, 0], 2, 3⟩ (by decide) (by decide) 0 1 [97, 98]
    [120, 121, 122] true (by decide) (by decide) (by decide) (by decide) (by decide)).1
    (by decide)

/-- Rightmost match of `pat` with start position in `[low, q]`, scanning
down.  `fuel` only bounds the recursion. -/
def rfindWin (d pat : List Nat) (low : Nat) : Nat → Nat → Option Nat
  | 0, _ => none
  | fuel + 1, q =>
      if low ≤ q then
        if matchAt d pat q then some q
        else if low < q then rfindWin d pat low fuel (q - 1) else none
      else none

/-- Modelled from the spec: the removal loop of `mdz_ansi_16_remove` (spec
§4.3) — repeatedly locate an occurrence of the items inside the current
window (from the left or from the right), remove it with the removeFrom
shift, and shrink the window bound by the removed length. -/
def removeLoop (pat : List Nat) (bFromLeft : Bool) :
    Nat → Ansi16 → Nat → Nat → Ansi16
  | 0, s, _, _ => s
  | fuel + 1, s, l, r =>
      if r < s.size ∧ l ≤ r ∧ pat.length ≤ r + 1 - l then
        match (if bFromLeft then naiveFindRef s.data pat l (r + 1)
               else rfindWin s.data pat l (r + 2) (r + 1 - pat.length)) with
        | none => s
        | some q =>
            removeLoop pat bFromLeft fuel (removeFromApply s q pat.length) l
              (r - pat.length)
      else s

/-- Validation chain of `mdz_ansi_16_remove` after the license and
NULL-handle checks, in the order documented in `mdz_ansi_16.h` lines 364-386. -/
def removeCheck (s : Ansi16) (nLeftPos nRightPos : Nat) (pcItems : Option (List Nat))
    (nCount : Nat) : Option MdzError :=
  if capTooLarge s then some .CAPACITY
  else if s.capacity < s.size then some .BIG_SIZE
  else if s.data.getD s.size 1 ≠ 0 then some .TERMINATOR
  else if s.size = 0 then some .ZERO_SIZE
  else if pcItems = none then some .ITEMS
  else if nCount = 0 then some .ZERO_COUNT
  else if s.size ≤ nRightPos then some .BIG_RIGHT
  else if nRightPos < nLeftPos then some .BIG_LEFT
  else if nRightPos + 1 - nLeftPos < nCount then some .BIG_COUNT
  else none

/-- Modelled from the spec: the body of `mdz_ansi_16_remove` is not in src/;
error contract from `mdz_ansi_16.h` lines 364-386, removal loop from spec
§4.3. -/
def mdz_ansi_16_remove (lic : Bool) (ps : Option Ansi16) (nLeftPos nRightPos : Nat)
    (pcItems : Option (List Nat)) (nCount : Nat) (bFromLeft : Bool) :
    MdzError × Option Ansi16 :=
  if lic = false then (.LICENSE, ps)
  else
    match ps with
    | none => (.DATA, none)
    | some s =>
        match removeCheck s nLeftPos nRightPos pcItems nCount with
        | some e => (e, some s)
        | none =>
            (.NONE, some (removeLoop ((pcItems.getD []).take nCount) bFromLeft
              (s.size + 1) s nLeftPos nRightPos))

/-- Number of leading bytes of a list that belong to the given byte set. -/
def countLeadIn (set : List Nat) : List Nat → Nat
  | [] => 0
  | x :: xs => if x ∈ set then 1 + countLeadIn set xs else 0

/-- Validation chain shared by the trim functions after the license and
NULL-handle checks, in the order documented in `mdz_ansi_16.h` lines 388-452. -/
def trimCheck (s : Ansi16) (nLeftPos nRightPos : Nat) (pcItems : Option (List Nat))
    (nCount : Nat) : Option MdzError :=
  if capTooLarge s then some .CAPACITY
  else if s.capacity < s.size then some .BIG_SIZE
  else if s.data.getD s.size 1 ≠ 0 then some .TERMINATOR
  else if s.size = 0 then some .ZERO_SIZE
  else if pcItems = none then some .ITEMS
  else if nCount = 0 then some .ZERO_COUNT
  else if s.size ≤ nRightPos then some .BIG_RIGHT
  else if nRightPos < nLeftPos then some .BIG_LEFT
  else none

/-- Modelled from the spec: successful-path semantics of trimLeft (spec §4.3)
— walk right from `nLeftPos` while the byte is in the set, then remove the
consumed prefix of the window. -/
def trimLeftApply (s : Ansi16) (nLeftPos nRightPos : Nat) (set : List Nat) : Ansi16 :=
  let k := countLeadIn set (seg s.data nLeftPos (nRightPos + 1))
  if k = 0 then s else removeFromApply s nLeftPos k

/-- Modelled from the spec: successful-path semantics of trimRight (spec §4.3)
— walk left from `nRightPos` while the byte is in the set, then remove the
consumed suffix of the window. -/
def trimRightApply (s : Ansi16) (nLeftPos nRightPos : Nat) (set : List Nat) : Ansi16 :=
  let j := countLeadIn set ((seg s.data nLeftPos (nRightPos + 1)).reverse)
  if j = 0 then s else removeFromApply s (nRightPos + 1 - j) j

/-- Modelled from the spec: successful-path semantics of trim (spec §4.3) —
trim the window from the right, then from the left. -/
def trimApply (s : Ansi16) (nLeftPos nRightPos : Nat) (set : List Nat) : Ansi16 :=
  let j := countLeadIn set ((seg s.data nLeftPos (nRightPos + 1)).reverse)
  let s1 := if j = 0 then s else removeFromApply s (nRightPos + 1 - j) j
  let k := countLeadIn set (seg s1.data nLeftPos (nRightPos + 1 - j))
  if k = 0 then s1 else removeFromApply s1 nLeftPos k

/-- Modelled from the spec: the body of `mdz_ansi_16_trimLeft` is not in
src/; error contract from `mdz_ansi_16.h` lines 388-408, trim semantics from
spec §4.3. -/
def mdz_ansi_16_trimLeft (lic : Bool) (ps : Option Ansi16) (nLeftPos nRightPos : Nat)
    (pcItems : Option (List Nat)) (nCount : Nat) : MdzError × Option Ansi16 :=
  if lic = false then (.LICENSE, ps)
  else
    match ps with
    | none => (.DATA, none)
    | some s =>
        match trimCheck s nLeftPos nRightPos pcItems nCount with
        | some e => (e, some s)
        | none =>
            (.NONE, some (trimLeftApply s nLeftPos nRightPos
              ((pcItems.getD []).take nCount)))

/-- Modelled from the spec: the body of `mdz_ansi_16_trimRight` is not in
src/; error contract from `mdz_ansi_16.h` lines 410-430, trim semantics from
spec §4.3. -/
def mdz_ansi_16_trimRight (lic : Bool) (ps : Option Ansi16) (nLeftPos nRightPos : Nat)
    (pcItems : Option (List Nat)) (nCount : Nat) : MdzError × Option Ansi16 :=
  if lic = false then (.LICENSE, ps)
  else
    match ps with
    | none => (.DATA, none)
    | some s =>
        match trimCheck s nLeftPos nRightPos pcItems nCount with
        | some e => (e, some s)
        | none =>
            (.NONE, some (trimRightApply s nLeftPos nRightPos
              ((pcItems.getD []).take nCount)))

/-- Modelled from the spec: the body of `mdz_ansi_16_trim` is not in src/;
error contract from `mdz_ansi_16.h` lines 432-452, trim semantics from spec
§4.3. -/
def mdz_ansi_16_trim (lic : Bool) (ps : Option Ansi16) (nLeftPos nRightPos : Nat)
    (pcItems : Option (List Nat)) (nCount : Nat) : MdzError × Option Ansi16 :=
  if lic = false then (.LICENSE, ps)
  else
    match ps with
    | none => (.DATA, none)
    | some s =>
        match trimCheck s nLeftPos nRightPos pcItems nCount with
        | some e => (e, some s)
        | none =>
            (.NONE, some (trimApply s nLeftPos nRightPos
              ((pcItems.getD []).take nCount)))

example :
    mdz_ansi_16_trim true (some ⟨[32, 32, 104, 105, 32, 32, 0, 9], 6, 7⟩) 0 5
      (some [32]) 1
      = (.NONE, some ⟨[104, 105, 0, 105, 0, 32, 0, 9], 2, 7⟩) := by decide

example :
    mdz_ansi_16_remove true (some ⟨[97, 98, 97, 98, 99, 0, 9], 5, 6⟩) 0 4
      (some [97, 98]) 2 true
      = (.NONE, some ⟨[99, 0, 99, 0, 99, 0, 9], 1, 6⟩) := by decide

theorem insertCheck_ne_NONE (s : Ansi16) (l : Nat) (items : Option (List Nat))
    (cnt : Nat) (ov : Bool) (e : MdzError)
    (h : insertCheck s l items cnt ov = some e) : e ≠ .NONE := by
  unfold insertCheck at h
  repeat' split at h
  all_goals first
    | (injection h with h2; subst h2; simp)
    | simp at h

theorem removeFromCheck_ne_NONE (s : Ansi16) (l cnt : Nat) (e : MdzError)
    (h : removeFromCheck s l cnt = some e) : e ≠ .NONE := by
  unfold removeFromCheck at h
  repeat' split at h
  all_goals first
    | (injection h with h2; subst h2; simp)
    | simp at h

theorem removeCheck_ne_NONE (s : Ansi16) (l r : Nat) (items : Option (List Nat))
    (cnt : Nat) (e : MdzError) (h : removeCheck s l r items cnt = some e) :
    e ≠ .NONE := by
  unfold removeCheck at h
  repeat' split at h
  all_goals first
    | (injection h with h2; subst h2; simp)
    | simp at h

theorem trimCheck_ne_NONE (s : Ansi16) (l r : Nat) (items : Option (List Nat))
    (cnt : Nat) (e : MdzError) (h : trimCheck s l r items cnt = some e) :
    e ≠ .NONE := by
  unfold trimCheck at h
  repeat' split at h
  all_goals first
    | (injection h with h2; subst h2; simp)
    | simp at h

theorem reverseCheck_ne_NONE (s : Ansi16) (l r : Nat) (e : MdzError)
    (h : reverseCheck s l r = some e) : e ≠ .NONE := by
  unfold reverseCheck at h
  repeat' split at h
  all_goals first
    | (injection h with h2; subst h2; simp)
    | simp at h

theorem insertCheck_none_facts (s : Ansi16) (l : Nat) (items : Option (List Nat))
    (cnt : Nat) (ov : Bool) (h : insertCheck s l items cnt ov = none) :
    l ≤ s.size ∧ s.size + cnt ≤ s.capacity := by
  unfold insertCheck at h
  repeat' split at h
  all_goals first
    | exact Option.noConfusion h
    | exact ⟨by omega, by omega⟩

theorem removeFromCheck_none_facts (s : Ansi16) (l cnt : Nat)
    (h : removeFromCheck s l cnt = none) : l < s.size ∧ cnt ≤ s.size - l := by
  unfold removeFromCheck at h
  repeat' split at h
  all_goals first
    | exact Option.noConfusion h
    | exact ⟨by omega, by omega⟩

theorem removeCheck_none_facts (s : Ansi16) (l r : Nat) (items : Option (List Nat))
    (cnt : Nat) (h : removeCheck s l r items cnt = none) :
    r < s.size ∧ l ≤ r ∧ cnt ≤ r + 1 - l := by
  unfold removeCheck at h
  repeat' split at h
  all_goals first
    | exact Option.noConfusion h
    | exact ⟨by omega, by omega, by omega⟩

theorem trimCheck_none_facts (s : Ansi16) (l r : Nat) (items : Option (List Nat))
    (cnt : Nat) (h : trimCheck s l r items cnt = none) : r < s.size ∧ l ≤ r := by
  unfold trimCheck at h
  repeat' split at h
  all_goals first
    | exact Option.noConfusion h
    | exact ⟨by omega, by omega⟩

theorem reverseCheck_none_facts (s : Ansi16) (l r : Nat)
    (h : reverseCheck s l r = none) : l < r ∧ r < s.size := by
  unfold reverseCheck at h
  repeat' split at h
  all_goals first
    | exact Option.noConfusion h
    | exact ⟨by omega, by omega⟩

theorem replaceCheck_none_facts (s : Ansi16) (l r : Nat) (pb : Option (List Nat))
    (cb : Nat) (ov : Bool) (h : replaceCheck s l r pb cb ov = none) :
    r < s.size ∧ l ≤ r ∧ cb ≤ r + 1 - l := by
  unfold replaceCheck at h
  repeat' split at h
  all_goals first
    | exact Option.noConfusion h
    | exact ⟨by omega, by omega, by omega⟩

theorem getD_mid_zero (A B : List Nat) (n : Nat) (hA : A.length = n) :
    (A ++ [0] ++ B).getD n 1 = 0 := by
  have hre : A ++ [0] ++ B = A ++ 0 :: B := by simp
  rw [hre, ← hA]
  exact getD_append_len A B 0 1

theorem wf_insertApply (s : Ansi16) (hlen : s.data.length = s.capacity + 1)
    (l : Nat) (its : List Nat) (cnt : Nat) (hl : l ≤ s.size)
    (hfit : s.size + cnt ≤ s.capacity) (hcnt : cnt ≤ its.length) :
    wf (insertApply s l its cnt) := by
  have hlt : (s.data.take l).length = l := by rw [List.length_take]; omega
  have htl : (its.take cnt).length = cnt := by rw [List.length_take]; omega
  have hsegl : (seg s.data l s.size).length = s.size - l :=
    seg_len s.data l s.size (by omega) hl
  have hA : (s.data.take l ++ its.take cnt ++ seg s.data l s.size).length
      = s.size + cnt := by
    simp only [List.length_append, hlt, htl, hsegl]; omega
  refine ⟨?_, hfit, ?_⟩
  · show (s.data.take l ++ its.take cnt ++ seg s.data l s.size ++ [0]
        ++ s.data.drop (s.size + cnt + 1)).length = s.capacity + 1
    simp only [List.length_append, hlt, htl, hsegl, List.length_drop,
      List.length_cons, List.length_nil, hlen]
    omega
  · exact getD_mid_zero _ _ _ hA

theorem wf_removeFromApply (s : Ansi16) (hlen : s.data.length = s.capacity + 1)
    (hsz : s.size ≤ s.capacity) (l cnt : Nat) (hl : l ≤ s.size)
    (hcnt : cnt ≤ s.size - l) : wf (removeFromApply s l cnt) := by
  have hlt : (s.data.take l).length = l := by rw [List.length_take]; omega
  have hsegl : (seg s.data (l + cnt) s.size).length = s.size - (l + cnt) :=
    seg_len s.data (l + cnt) s.size (by omega) (by omega)
  have hA : (s.data.take l ++ seg s.data (l + cnt) s.size).length = s.size - cnt := by
    simp only [List.length_append, hlt, hsegl]; omega
  refine ⟨?_, by show s.size - cnt ≤ s.capacity; omega, ?_⟩
  · show (s.data.take l ++ seg s.data (l + cnt) s.size ++ [0]
        ++ s.data.drop (s.size - cnt + 1)).length = s.capacity + 1
    simp only [List.length_append, hlt, hsegl, List.length_drop,
      List.length_cons, List.length_nil, hlen]
    omega
  · exact getD_mid_zero _ _ _ hA

theorem wf_reverseApply (s : Ansi16) (hlen : s.data.length = s.capacity + 1)
    (hsz : s.size ≤ s.capacity) (hterm : s.data.getD s.size 1 = 0)
    (l r : Nat) (hlr : l < r) (hr : r < s.size) : wf (reverseApply s l r) := by
  have hlt : (s.data.take l).length = l := by rw [List.length_take]; omega
  have hsegl : ((seg s.data l (r + 1)).reverse).length = r + 1 - l := by
    rw [List.length_reverse, seg_len s.data l (r + 1) (by omega) (by omega)]
  have hpre : (s.data.take l ++ (seg s.data l (r + 1)).reverse).length = r + 1 := by
    rw [List.length_append, hlt, hsegl]; omega
  refine ⟨?_, hsz, ?_⟩
  · show (s.data.take l ++ (seg s.data l (r + 1)).reverse
        ++ s.data.drop (r + 1)).length = s.capacity + 1
    simp only [List.length_append, hlt, hsegl, List.length_drop, hlen]
    omega
  · show (s.data.take l ++ (seg s.data l (r + 1)).reverse
        ++ s.data.drop (r + 1)).getD s.size 1 = 0
    rw [List.getD_append_right _ _ 1 s.size (by rw [hpre]; omega), hpre, getD_drop,
      show r + 1 + (s.size - (r + 1)) = s.size from by omega]
    exact hterm

theorem rfindWin_some (d pat : List Nat) (low : Nat) :
    ∀ fuel q x, rfindWin d pat low fuel q = some x →
      low ≤ x ∧ x ≤ q ∧ matchAt d pat x = true := by
  intro fuel
  induction fuel with
  | zero => intro q x h; simp [rfindWin] at h
  | succ fuel ih =>
    intro q x h
    simp only [rfindWin] at h
    by_cases hlq : low ≤ q
    · rw [if_pos hlq] at h
      by_cases hm : matchAt d pat q = true
      · rw [if_pos hm] at h
        have hx : q = x := by simpa using h
        subst hx
        exact ⟨hlq, le_refl _, hm⟩
      · rw [if_neg hm] at h
        by_cases hlow : low < q
        · rw [if_pos hlow] at h
          obtain ⟨ha, hb, hc⟩ := ih (q - 1) x h
          exact ⟨ha, by omega, hc⟩
        · rw [if_neg hlow] at h; exact absurd h (by simp)
    · rw [if_neg hlq] at h; exact absurd h (by simp)

theorem wf_removeLoop (pat : List Nat) (dir : Bool) :
    ∀ fuel (s : Ansi16) l r, s.data.length = s.capacity + 1 → s.size ≤ s.capacity →
      s.data.getD s.size 1 = 0 → wf (removeLoop pat dir fuel s l r) := by
  intro fuel
  induction fuel with
  | zero => intro s l r h1 h2 h3; exact ⟨h1, h2, h3⟩
  | succ fuel ih =>
    intro s l r h1 h2 h3
    simp only [removeLoop]
    by_cases hg : r < s.size ∧ l ≤ r ∧ pat.length ≤ r + 1 - l
    · rw [if_pos hg]
      obtain ⟨hg1, hg2, hg3⟩ := hg
      cases hf : (if dir then naiveFindRef s.data pat l (r + 1)
          else rfindWin s.data pat l (r + 2) (r + 1 - pat.length)) with
      | none => exact ⟨h1, h2, h3⟩
      | some q =>
        have hq : l ≤ q ∧ q + pat.length ≤ r + 1 := by
          cases dir with
          | true =>
            rw [if_pos rfl] at hf
            unfold naiveFindRef at hf
            obtain ⟨ha, hb, _, _⟩ := naiveAux_some_char s.data pat (r + 1)
              (r + 1 + 1) l q (by omega) hf
            exact ⟨ha, hb⟩
          | false =>
            rw [if_neg (by simp)] at hf
            obtain ⟨ha, hb, _⟩ := rfindWin_some s.data pat l (r + 2)
              (r + 1 - pat.length) q hf
            exact ⟨ha, by omega⟩
        obtain ⟨hw1, hw2, hw3⟩ := wf_removeFromApply s h1 h2 q pat.length
          (by omega) (by omega)
        exact ih (removeFromApply s q pat.length) l (r - pat.length) hw1 hw2 hw3
    · rw [if_neg hg]
      exact ⟨h1, h2, h3⟩

theorem countLeadIn_le (set : List Nat) : ∀ l : List Nat, countLeadIn set l ≤ l.length := by
  intro l
  induction l with
  | nil => simp [countLeadIn]
  | cons x xs ih =>
    simp only [countLeadIn]
    split
    · simp only [List.length_cons]; omega
    · simp only [List.length_cons]; omega

theorem wf_trimLeftApply (s : Ansi16) (hlen : s.data.length = s.capacity + 1)
    (hsz : s.size ≤ s.capacity) (hterm : s.data.getD s.size 1 = 0)
    (l r : Nat) (set : List Nat) (hr : r < s.size) (hl : l ≤ r) :
    wf (trimLeftApply s l r set) := by
  unfold trimLeftApply
  dsimp only
  split
  · exact ⟨hlen, hsz, hterm⟩
  · have hk := countLeadIn_le set (seg s.data l (r + 1))
    rw [seg_len s.data l (r + 1) (by omega) (by omega)] at hk
    exact wf_removeFromApply s hlen hsz l _ (by omega) (by omega)

theorem wf_trimRightApply (s : Ansi16) (hlen : s.data.length = s.capacity + 1)
    (hsz : s.size ≤ s.capacity) (hterm : s.data.getD s.size 1 = 0)
    (l r : Nat) (set : List Nat) (hr : r < s.size) (hl : l ≤ r) :
    wf (trimRightApply s l r set) := by
  unfold trimRightApply
  dsimp only
  split
  · exact ⟨hlen, hsz, hterm⟩
  · have hj := countLeadIn_le set ((seg s.data l (r + 1)).reverse)
    rw [List.length_reverse, seg_len s.data l (r + 1) (by omega) (by omega)] at hj
    exact wf_removeFromApply s hlen hsz _ _ (by omega) (by omega)

theorem wf_trimApply (s : Ansi16) (hlen : s.data.length = s.capacity + 1)
    (hsz : s.size ≤ s.capacity) (hterm : s.data.getD s.size 1 = 0)
    (l r : Nat) (set : List Nat) (hr : r < s.size) (hl : l ≤ r) :
    wf (trimApply s l r set) := by
  have hj := countLeadIn_le set ((seg s.data l (r + 1)).reverse)
  rw [List.length_reverse, seg_len s.data l (r + 1) (by omega) (by omega)] at hj
  unfold trimApply
  dsimp only
  by_cases hj0 : countLeadIn set ((seg s.data l (r + 1)).reverse) = 0
  · simp only [hj0, if_pos rfl, Nat.sub_zero]
    exact wf_trimLeftApply s hlen hsz hterm l r set hr hl
  · simp only [if_neg hj0]
    obtain ⟨h1, h2, h3⟩ := wf_removeFromApply s hlen hsz (r + 1 - (countLeadIn set
      ((seg s.data l (r + 1)).reverse))) (countLeadIn set ((seg s.data l (r + 1)).reverse))
      (by omega) (by omega)
    have hc : (removeFromApply s (r + 1 - (countLeadIn set ((seg s.data l (r + 1)).reverse)))
        (countLeadIn set ((seg s.data l (r + 1)).reverse))).capacity = s.capacity := rfl
    have hs1 : (removeFromApply s (r + 1 - (countLeadIn set ((seg s.data l (r + 1)).reverse)))
        (countLeadIn set ((seg s.data l (r + 1)).reverse))).size
        = s.size - countLeadIn set ((seg s.data l (r + 1)).reverse) := rfl
    split
    · exact ⟨h1, h2, h3⟩
    · have hk := countLeadIn_le set (seg (removeFromApply s (r + 1 - (countLeadIn set
        ((seg s.data l (r + 1)).reverse))) (countLeadIn set ((seg s.data l (r + 1)).reverse))).data
        l (r + 1 - countLeadIn set ((seg s.data l (r + 1)).reverse)))
      rw [seg_len _ l (r + 1 - countLeadIn set ((seg s.data l (r + 1)).reverse))
        (by rw [h1, hc]; omega) (by omega)] at hk
      exact wf_removeFromApply _ h1 h2 l _ (by rw [hs1]; omega) (by rw [hs1]; omega)

theorem replaceMatches_facts (s : Ansi16) (l r : Nat) (pat : List Nat) (dir : Bool)
    (hr : r < s.size) (hm : pat.length ≤ r + 1 - l) :
    List.Pairwise (fun a b => a + pat.length ≤ b) (replaceMatches s l r pat dir) ∧
    ∀ q ∈ replaceMatches s l r pat dir, q + pat.length ≤ s.size := by
  unfold replaceMatches
  cases dir with
  | true =>
    rw [if_pos rfl]
    obtain ⟨hpw, hmem⟩ := collectUp_spec (fun q => matchAt s.data pat q) pat.length
      (r + 2 - pat.length) (r + 2) l
    refine ⟨hpw, fun q hq => ?_⟩
    obtain ⟨_, _, h3⟩ := hmem q hq
    omega
  | false =>
    rw [if_neg (by simp)]
    obtain ⟨hpw, hmem⟩ := collectDown_spec (fun q => matchAt s.data pat q) pat.length
      l (r + 2) (r + 1 - pat.length)
    refine ⟨?_, fun q hq => ?_⟩
    · rw [List.pairwise_reverse]
      exact hpw
    · rw [List.mem_reverse] at hq
      obtain ⟨_, _, h3⟩ := hmem q hq
      omega

theorem wf_replaceApply (s : Ansi16) (hlen : s.data.length = s.capacity + 1)
    (hsz : s.size ≤ s.capacity) (l r : Nat) (pat after : List Nat) (dir : Bool)
    (hr : r < s.size) (hm : pat.length ≤ r + 1 - l)
    (hns : replaceNewSize s l r pat after.length dir ≤ s.capacity) :
    wf { data := replConcat s.data after pat.length s.size 0
           (replaceMatches s l r pat dir)
           ++ [0] ++ s.data.drop (replaceNewSize s l r pat after.length dir + 1),
         size := replaceNewSize s l r pat after.length dir,
         capacity := s.capacity } := by
  obtain ⟨hpw, hmem⟩ := replaceMatches_facts s l r pat dir hr hm
  have hk : (replaceMatches s l r pat dir).length * pat.length ≤ s.size := by
    rcases pairwise_gap_sum pat.length s.size (replaceMatches s l r pat dir) 0 hpw
      (fun q hq => ⟨Nat.zero_le q, hmem q hq⟩) with h | h
    · omega
    · rw [h]; simp
  have hns_eq : replaceNewSize s l r pat after.length dir
      = s.size - (replaceMatches s l r pat dir).length * pat.length
        + (replaceMatches s l r pat dir).length * after.length := rfl
  have hclen : (replConcat s.data after pat.length s.size 0
      (replaceMatches s l r pat dir)).length
      = replaceNewSize s l r pat after.length dir := by
    have := replConcat_length s.data after pat.length s.size (by omega)
      (replaceMatches s l r pat dir) 0 (Nat.zero_le _)
      (fun q hq => ⟨Nat.zero_le q, hmem q hq⟩) hpw
    omega
  refine ⟨?_, hns, ?_⟩
  · show (replConcat s.data after pat.length s.size 0 (replaceMatches s l r pat dir)
        ++ [0] ++ s.data.drop (replaceNewSize s l r pat after.length dir + 1)).length
      = s.capacity + 1
    simp only [List.length_append, List.length_cons, List.length_nil,
      List.length_drop, hclen, hlen]
    omega
  · exact getD_mid_zero _ _ _ hclen

/-- C2: for each of the eight mutation operations (insert, removeFrom,
remove, trimLeft, trimRight, trim, replace, reverse), whenever the call
returns an error code other than `MDZ_ERROR_NONE`, the bound string handed
back is exactly the one passed in — same content bytes, size and capacity —
because every operation validates fully before writing any byte. -/
theorem c2_errors_leave_unchanged (lic : Bool) (ps : Option Ansi16) :
    (∀ l items cnt ov, (mdz_ansi_16_insert lic ps l items cnt ov).1 ≠ .NONE →
      (mdz_ansi_16_insert lic ps l items cnt ov).2 = ps) ∧
    (∀ l cnt, (mdz_ansi_16_removeFrom lic ps l cnt).1 ≠ .NONE →
      (mdz_ansi_16_removeFrom lic ps l cnt).2 = ps) ∧
    (∀ l r items cnt dir, (mdz_ansi_16_remove lic ps l r items cnt dir).1 ≠ .NONE →
      (mdz_ansi_16_remove lic ps l r items cnt dir).2 = ps) ∧
    (∀ l r items cnt, (mdz_ansi_16_trimLeft lic ps l r items cnt).1 ≠ .NONE →
      (mdz_ansi_16_trimLeft lic ps l r items cnt).2 = ps) ∧
    (∀ l r items cnt, (mdz_ansi_16_trimRight lic ps l r items cnt).1 ≠ .NONE →
      (mdz_ansi_16_trimRight lic ps l r items cnt).2 = ps) ∧
    (∀ l r items cnt, (mdz_ansi_16_trim lic ps l r items cnt).1 ≠ .NONE →
      (mdz_ansi_16_trim lic ps l r items cnt).2 = ps) ∧
    (∀ l r pb cb pa ca dir kind ov ovr,
      (mdz_ansi_16_replace lic ps l r pb cb pa ca dir kind ov ovr).1 ≠ .NONE →
      (mdz_ansi_16_replace lic ps l r pb cb pa ca dir kind ov ovr).2 = ps) ∧
    (∀ l r, (mdz_ansi_16_reverse lic ps l r).1 ≠ .NONE →
      (mdz_ansi_16_reverse lic ps l r).2 = ps) := by
  refine ⟨?_, ?_, ?_, ?_, ?_, ?_, ?_, ?_⟩
  · intro l items cnt ov h
    unfold mdz_ansi_16_insert at h ⊢
    by_cases hlic : lic = false
    · rw [if_pos hlic]
    · rw [if_neg hlic] at h ⊢
      cases ps with
      | none => rfl
      | some s =>
        dsimp only at h ⊢
        cases hchk : insertCheck s l items cnt ov with
        | some e => rfl
        | none => rw [hchk] at h; exact absurd rfl h
  · intro l cnt h
    unfold mdz_ansi_16_removeFrom at h ⊢
    by_cases hlic : lic = false
    · rw [if_pos hlic]
    · rw [if_neg hlic] at h ⊢
      cases ps with
      | none => rfl
      | some s =>
        dsimp only at h ⊢
        cases hchk : removeFromCheck s l cnt with
        | some e => rfl
        | none => rw [hchk] at h; exact absurd rfl h
  · intro l r items cnt dir h
    unfold mdz_ansi_16_remove at h ⊢
    by_cases hlic : lic = false
    · rw [if_pos hlic]
    · rw [if_neg hlic] at h ⊢
      cases ps with
      | none => rfl
      | some s =>
        dsimp only at h ⊢
        cases hchk : removeCheck s l r items cnt with
        | some e => rfl
        | none => rw [hchk] at h; exact absurd rfl h
  · intro l r items cnt h
    unfold mdz_ansi_16_trimLeft at h ⊢
    by_cases hlic : lic = false
    · rw [if_pos hlic]
    · rw [if_neg hlic] at h ⊢
      cases ps with
      | none => rfl
      | some s =>
        dsimp only at h ⊢
        cases hchk : trimCheck s l r items cnt with
        | some e => rfl
        | none => rw [hchk] at h; exact absurd rfl h
  · intro l r items cnt h
    unfold mdz_ansi_16_trimRight at h ⊢
    by_cases hlic : lic = false
    · rw [if_pos hlic]
    · rw [if_neg hlic] at h ⊢
      cases ps with
      | none => rfl
      | some s =>
        dsimp only at h ⊢
        cases hchk : trimCheck s l r items cnt with
        | some e => rfl
        | none => rw [hchk] at h; exact absurd rfl h
  · intro l r items cnt h
    unfold mdz_ansi_16_trim at h ⊢
    by_cases hlic : lic = false
    · rw [if_pos hlic]
    · rw [if_neg hlic] at h ⊢
      cases ps with
      | none => rfl
      | some s =>
        dsimp only at h ⊢
        cases hchk : trimCheck s l r items cnt with
        | some e => rfl
        | none => rw [hchk] at h; exact absurd rfl h
  · intro l r pb cb pa ca dir kind ov ovr h
    unfold mdz_ansi_16_replace at h ⊢
    by_cases hlic : lic = false
    · rw [if_pos hlic]
    · rw [if_neg hlic] at h ⊢
      cases ps with
      | none => rfl
      | some s =>
        dsimp only at h ⊢
        cases hchk : replaceCheck s l r pb cb ov with
        | some e => rfl
        | none =>
          rw [hchk] at h
          dsimp only at h ⊢
          by_cases h1 : s.capacity < replaceNewSize s l r ((pb.getD []).take cb) ca dir
          · rw [if_pos h1]
          · rw [if_neg h1] at h ⊢
            by_cases h2 : ovr = true
            · rw [if_pos h2]
            · rw [if_neg h2] at h ⊢
              by_cases h3 : kind ≠ MDZ_ANSI_REPLACE_DUAL
              · rw [if_pos h3]
              · rw [if_neg h3] at h ⊢
                exact absurd rfl h
  · intro l r h
    unfold mdz_ansi_16_reverse at h ⊢
    by_cases hlic : lic = false
    · rw [if_pos hlic]
    · rw [if_neg hlic] at h ⊢
      cases ps with
      | none => rfl
      | some s =>
        dsimp only at h ⊢
        cases hchk : reverseCheck s l r with
        | some e => rfl
        | none => rw [hchk] at h; exact absurd rfl h

theorem c2_errors_leave_unchanged_witness :
    (mdz_ansi_16_insert true (some ⟨[0], 0, 0⟩) 0 (some [1]) 1 false).1 ≠ .NONE ∧
    (mdz_ansi_16_insert true (some ⟨[0], 0, 0⟩) 0 (some [1]) 1 false).2
      = some ⟨[0], 0, 0⟩ :=
  ⟨by decide, (c2_errors_leave_unchanged true (some ⟨[0], 0, 0⟩)).1 0 (some [1]) 1
    false (by decide)⟩

/-- C3: for every bound string satisfying the invariant `0 ≤ size ≤ capacity`
with the zero terminator at content offset `size`, every mutation operation
that returns `MDZ_ERROR_NONE` hands back a string satisfying the same
invariant (the item-count hypotheses say the supplied item buffers really
hold the advertised number of bytes). -/
theorem c3_wf_preserved (s : Ansi16) (hwf : wf s) (lic : Bool) :
    (∀ l items cnt ov s', cnt ≤ (items.getD ([] : List Nat)).length →
      mdz_ansi_16_insert lic (some s) l items cnt ov = (.NONE, some s') → wf s') ∧
    (∀ l cnt s',
      mdz_ansi_16_removeFrom lic (some s) l cnt = (.NONE, some s') → wf s') ∧
    (∀ l r items cnt dir s',
      mdz_ansi_16_remove lic (some s) l r items cnt dir = (.NONE, some s') → wf s') ∧
    (∀ l r items cnt s',
      mdz_ansi_16_trimLeft lic (some s) l r items cnt = (.NONE, some s') → wf s') ∧
    (∀ l r items cnt s',
      mdz_ansi_16_trimRight lic (some s) l r items cnt = (.NONE, some s') → wf s') ∧
    (∀ l r items cnt s',
      mdz_ansi_16_trim lic (some s) l r items cnt = (.NONE, some s') → wf s') ∧
    (∀ l r pb cb pa ca dir kind ov ovr s', ca ≤ (pa.getD ([] : List Nat)).length →
      mdz_ansi_16_replace lic (some s) l r pb cb pa ca dir kind ov ovr
        = (.NONE, some s') → wf s') ∧
    (∀ l r s', mdz_ansi_16_reverse lic (some s) l r = (.NONE, some s') → wf s') := by
  obtain ⟨hlen, hsz, hterm⟩ := hwf
  refine ⟨?_, ?_, ?_, ?_, ?_, ?_, ?_, ?_⟩
  · intro l items cnt ov s' hcnt h
    unfold mdz_ansi_16_insert at h
    by_cases hlic : lic = false
    · rw [if_pos hlic] at h
      injection h with ha _
      exact MdzError.noConfusion ha
    · rw [if_neg hlic] at h
      dsimp only at h
      cases hchk : insertCheck s l items cnt ov with
      | some e =>
        rw [hchk] at h
        dsimp only at h
        injection h with ha _
        exact absurd ha (insertCheck_ne_NONE s l items cnt ov e hchk)
      | none =>
        rw [hchk] at h
        dsimp only at h
        injection h with _ hb
        injection hb with hb2
        subst hb2
        obtain ⟨hf1, hf2⟩ := insertCheck_none_facts s l items cnt ov hchk
        exact wf_insertApply s hlen l (items.getD []) cnt hf1 hf2 hcnt
  · intro l cnt s' h
    unfold mdz_ansi_16_removeFrom at h
    by_cases hlic : lic = false
    · rw [if_pos hlic] at h
      injection h with ha _
      exact MdzError.noConfusion ha
    · rw [if_neg hlic] at h
      dsimp only at h
      cases hchk : removeFromCheck s l cnt with
      | some e =>
        rw [hchk] at h
        dsimp only at h
        injection h with ha _
        exact absurd ha (removeFromCheck_ne_NONE s l cnt e hchk)
      | none =>
        rw [hchk] at h
        dsimp only at h
        injection h with _ hb
        injection hb with hb2
        subst hb2
        obtain ⟨hf1, hf2⟩ := removeFromCheck_none_facts s l cnt hchk
        exact wf_removeFromApply s hlen hsz l cnt (by omega) hf2
  · intro l r items cnt dir s' h
    unfold mdz_ansi_16_remove at h
    by_cases hlic : lic = false
    · rw [if_pos hlic] at h
      injection h with ha _
      exact MdzError.noConfusion ha
    · rw [if_neg hlic] at h
      dsimp only at h
      cases hchk : removeCheck s l r items cnt with
      | some e =>
        rw [hchk] at h
        dsimp only at h
        injection h with ha _
        exact absurd ha (removeCheck_ne_NONE s l r items cnt e hchk)
      | none =>
        rw [hchk] at h
        dsimp only at h
        injection h with _ hb
        injection hb with hb2
        subst hb2
        exact wf_removeLoop ((items.getD []).take cnt) dir (s.size + 1) s l r
          hlen hsz hterm
  · intro l r items cnt s' h
    unfold mdz_ansi_16_trimLeft at h
    by_cases hlic : lic = false
    · rw [if_pos hlic] at h
      injection h with ha _
      exact MdzError.noConfusion ha
    · rw [if_neg hlic] at h
      dsimp only at h
      cases hchk : trimCheck s l r items cnt with
      | some e =>
        rw [hchk] at h
        dsimp only at h
        injection h with ha _
        exact absurd ha (trimCheck_ne_NONE s l r items cnt e hchk)
      | none =>
        rw [hchk] at h
        dsimp only at h
        injection h with _ hb
        injection hb with hb2
        subst hb2
        obtain ⟨hf1, hf2⟩ := trimCheck_none_facts s l r items cnt hchk
        exact wf_trimLeftApply s hlen hsz hterm l r _ hf1 hf2
  · intro l r items cnt s' h
    unfold mdz_ansi_16_trimRight at h
    by_cases hlic : lic = false
    · rw [if_pos hlic] at h
      injection h with ha _
      exact MdzError.noConfusion ha
    · rw [if_neg hlic] at h
      dsimp only at h
      cases hchk : trimCheck s l r items cnt with
      | some e =>
        rw [hchk] at h
        dsimp only at h
        injection h with ha _
        exact absurd ha (trimCheck_ne_NONE s l r items cnt e hchk)
      | none =>
        rw [hchk] at h
        dsimp only at h
        injection h with _ hb
        injection hb with hb2
        subst hb2
        obtain ⟨hf1, hf2⟩ := trimCheck_none_facts s l r items cnt hchk
        exact wf_trimRightApply s hlen hsz hterm l r _ hf1 hf2
  · intro l r items cnt s' h
    unfold mdz_ansi_16_trim at h
    by_cases hlic : lic = false
    · rw [if_pos hlic] at h
      injection h with ha _
      exact MdzError.noConfusion ha
    · rw [if_neg hlic] at h
      dsimp only at h
      cases hchk : trimCheck s l r items cnt with
      | some e =>
        rw [hchk] at h
        dsimp only at h
        injection h with ha _
        exact absurd ha (trimCheck_ne_NONE s l r items cnt e hchk)
      | none =>
        rw [hchk] at h
        dsimp only at h
        injection h with _ hb
        injection hb with hb2
        subst hb2
        obtain ⟨hf1, hf2⟩ := trimCheck_none_facts s l r items cnt hchk
        exact wf_trimApply s hlen hsz hterm l r _ hf1 hf2
  · intro l r pb cb pa ca dir kind ov ovr s' hca h
    unfold mdz_ansi_16_replace at h
    by_cases hlic : lic = false
    · rw [if_pos hlic] at h
      injection h with ha _
      exact MdzError.noConfusion ha
    · rw [if_neg hlic] at h
      dsimp only at h
      cases hchk : replaceCheck s l r pb cb ov with
      | some e =>
        rw [hchk] at h
        dsimp only at h
        injection h with ha _
        exact absurd ha (replaceCheck_ne_NONE s l r pb cb ov e hchk)
      | none =>
        rw [hchk] at h
        dsimp only at h
        by_cases h1 : s.capacity < replaceNewSize s l r ((pb.getD []).take cb) ca dir
        · rw [if_pos h1] at h
          injection h with ha _
          exact MdzError.noConfusion ha
        · rw [if_neg h1] at h
          by_cases h2 : ovr = true
          · rw [if_pos h2] at h
            injection h with ha _
            exact MdzError.noConfusion ha
          · rw [if_neg h2] at h
            by_cases h3 : kind ≠ MDZ_ANSI_REPLACE_DUAL
            · rw [if_pos h3] at h
              injection h with ha _
              exact MdzError.noConfusion ha
            · rw [if_neg h3] at h
              injection h with _ hb
              injection hb with hb2
              subst hb2
              obtain ⟨hf1, hf2, hf3⟩ := replaceCheck_none_facts s l r pb cb ov hchk
              have hca' : ((pa.getD ([] : List Nat)).take ca).length = ca := by
                rw [List.length_take]; omega
              have hm : ((pb.getD ([] : List Nat)).take cb).length ≤ r + 1 - l := by
                rw [List.length_take]; omega
              have hw := wf_replaceApply s hlen hsz l r ((pb.getD []).take cb)
                ((pa.getD []).take ca) dir hf1 hm (by rw [hca']; omega)
              rw [hca'] at hw
              exact hw
  · intro l r s' h
    unfold mdz_ansi_16_reverse at h
    by_cases hlic : lic = false
    · rw [if_pos hlic] at h
      injection h with ha _
      exact MdzError.noConfusion ha
    · rw [if_neg hlic] at h
      dsimp only at h
      cases hchk : reverseCheck s l r with
      | some e =>
        rw [hchk] at h
        dsimp only at h
        injection h with ha _
        exact absurd ha (reverseCheck_ne_NONE s l r e hchk)
      | none =>
        rw [hchk] at h
        dsimp only at h
        injection h with _ hb
        injection hb with hb2
        subst hb2
        obtain ⟨hf1, hf2⟩ := reverseCheck_none_facts s l r hchk
        exact wf_reverseApply s hlen hsz hterm l r hf1 hf2

theorem c3_wf_preserved_witness :
    wf (⟨[1, 2, 3, 0], 3, 3⟩ : Ansi16) ∧
    mdz_ansi_16_reverse true (some ⟨[1, 2, 3, 0], 3, 3⟩) 0 2
      = (.NONE, some ⟨[3, 2, 1, 0], 3, 3⟩) ∧
    wf (⟨[3, 2, 1, 0], 3, 3⟩ : Ansi16) :=
  ⟨by decide, by decide,
    (c3_wf_preserved ⟨[1, 2, 3, 0], 3, 3⟩ (by decide) true).2.2.2.2.2.2.2
      0 2 ⟨[3, 2, 1, 0], 3, 3⟩ (by decide)⟩
